import Mathlib

/-!
Verification of the smartfolder per-folder event pipeline and sandboxed
tool registry, as a shallow embedding of the TypeScript source.

Paths are modelled in the POSIX style: an absolute, normalized path is a
list of segments (no empty segment, no "." or ".." entries).  The string
functions mirror the JavaScript string API used by the source
(String.prototype.startsWith and friends are prefix checks on the
character sequence).
-/

namespace SmartFolder

/-- JS String.prototype.startsWith, as a prefix check on the character data. -/
def strStartsWith (s p : String) : Bool := p.data.isPrefixOf s.data

/-- JS String.prototype.endsWith, as a suffix check on the character data. -/
def strEndsWith (s p : String) : Bool := p.data.isSuffixOf s.data

/-- Contiguous-infix check on character lists. -/
def listInfix (sub : List Char) : List Char → Bool
  | [] => sub.isEmpty
  | c :: rest => sub.isPrefixOf (c :: rest) || listInfix sub rest

/-- JS String.prototype.includes, as an infix check on the character data. -/
def strContains (s sub : String) : Bool := listInfix sub.data s.data

/-- Split a character list at every occurrence of the separator. -/
def splitOnSep (sep : Char) : List Char → List (List Char)
  | [] => [[]]
  | c :: rest =>
    match splitOnSep sep rest with
    | [] => [[c]]
    | g :: gs => if c = sep then [] :: g :: gs else (c :: g) :: gs

/-- Split a string at every occurrence of the separator character. -/
def strSplitChar (sep : Char) (s : String) : List String :=
  (splitOnSep sep s.data).map String.mk

/-- Lowercase a string character-wise (JS String.prototype.toLowerCase on
the ASCII range). -/
def strToLower (s : String) : String := String.mk (s.data.map Char.toLower)

/-- JS String.prototype.trim: strip leading and trailing whitespace. -/
def strTrim (s : String) : String :=
  let ws : Char → Bool := fun c => c = ' ' || c = '\t' || c = '\n' || c = '\r'
  String.mk (((s.data.dropWhile ws).reverse.dropWhile ws).reverse)

/-- Node Buffer.byteLength of a string in UTF-8, and the byte size fs.stat
reports for the file holding it. -/
def byteLen (s : String) : Nat := s.data.foldl (fun n c => n + c.utf8Size) 0

/-- Drop the last n characters (JS slice(0, -n)). -/
def strDropRight (s : String) (n : Nat) : String :=
  String.mk (s.data.take (s.data.length - n))

/-- Join strings with a separator. -/
def intercalateStr (sep : String) : List String → String
  | [] => ""
  | [s] => s
  | s :: t :: rest => s ++ sep ++ intercalateStr sep (t :: rest)

/-- Split a path string on the POSIX separator, dropping empty segments
(this is what repeated or trailing slashes reduce to under path.resolve). -/
def segsOf (s : String) : List String := (strSplitChar '/' s).filter (fun c => c ≠ "")

/-- Normalization core of Node path.resolve: process segments left to right
against a reversed stack, "." is dropped, ".." pops (and is dropped at the
root, as for absolute paths), anything else is pushed. -/
def normAux : List String → List String → List String
  | acc, [] => acc.reverse
  | acc, s :: rest =>
    if s = "." then normAux acc rest
    else if s = ".." then normAux acc.tail rest
    else normAux (s :: acc) rest

/-- Node path.resolve(base, target) for an already-normalized absolute
base: an absolute target is normalized from the root, a relative target is
normalized on top of the base. -/
def resolvePath (base : List String) (target : String) : List String :=
  if strStartsWith target "/" then normAux [] (segsOf target)
  else normAux base.reverse (segsOf target)

/-- Length of the longest common prefix of two segment lists. -/
def commonPrefixLen : List String → List String → Nat
  | a :: as, b :: bs => if a = b then commonPrefixLen as bs + 1 else 0
  | _, _ => 0

/-- Segments of Node path.relative(src, dst) for normalized absolute
src and dst: climb out of the non-shared part of src, then descend into
the non-shared part of dst. -/
def relSegs (src dst : List String) : List String :=
  let c := commonPrefixLen src dst
  List.replicate (src.length - c) ".." ++ dst.drop c

/-- Join segments with the POSIX separator (the string Node path.relative
returns). -/
def joinSegs : List String → String
  | [] => ""
  | [s] => s
  | s :: t :: rest => s ++ "/" ++ joinSegs (t :: rest)

/-- Node path.relative(src, dst) as a string, for normalized absolute inputs. -/
def pathRelative (src dst : List String) : String := joinSegs (relSegs src dst)

/-- Node path.resolve(folderPath) for an absolute folder path. -/
def resolveFolder (folderPath : String) : List String := normAux [] (segsOf folderPath)

/-- resolveWithinFolder from the tool registry: resolve the target against
the folder, then refuse it when the relative form starts with ".." or is
absolute. -/
def resolveWithinFolder (folderPath target : String) : Except String (List String) :=
  let normalizedFolder := resolveFolder folderPath
  let absolute := resolvePath normalizedFolder target
  let relative := pathRelative normalizedFolder absolute
  if strStartsWith relative ".." || strStartsWith relative "/" then
    .error "Path escapes the watched folder."
  else .ok absolute

theorem commonPrefixLen_le_left (a b : List String) : commonPrefixLen a b ≤ a.length := by
  induction a generalizing b with
  | nil => simp [commonPrefixLen]
  | cons x xs ih =>
    cases b with
    | nil => simp [commonPrefixLen]
    | cons y ys =>
      by_cases h : x = y <;> simp [commonPrefixLen, h, Nat.succ_le_succ, ih]

theorem commonPrefixLen_full (a b : List String) (h : commonPrefixLen a b = a.length) :
    a <+: b := by
  induction a generalizing b with
  | nil => exact List.nil_prefix
  | cons x xs ih =>
    cases b with
    | nil => simp [commonPrefixLen] at h
    | cons y ys =>
      by_cases hxy : x = y
      · subst hxy
        have h' : commonPrefixLen xs ys = xs.length := by
          simpa [commonPrefixLen] using h
        exact List.cons_prefix_cons.mpr ⟨rfl, ih ys h'⟩
      · simp [commonPrefixLen, hxy] at h

theorem joinSegs_dotdot_startsWith (rest : List String) :
    strStartsWith (joinSegs (".." :: rest)) ".." = true := by
  cases rest with
  | nil => decide
  | cons t ts =>
    show (("..").data.isPrefixOf ((".." ++ "/" ++ joinSegs (t :: ts)).data)) = true
    rw [String.data_append, String.data_append]
    simp [List.isPrefixOf]

/-- The containment condition of resolveWithinFolder, exactly as the source
computes it: the relative form starts with ".." or is absolute. -/
def escapes (folderPath target : String) : Bool :=
  let normalizedFolder := resolveFolder folderPath
  let absolute := resolvePath normalizedFolder target
  let relative := pathRelative normalizedFolder absolute
  strStartsWith relative ".." || strStartsWith relative "/"

theorem resolveWithinFolder_eq (folderPath target : String) :
    resolveWithinFolder folderPath target =
      if escapes folderPath target then .error "Path escapes the watched folder."
      else .ok (resolvePath (resolveFolder folderPath) target) := rfl

/-- A path whose relative form does not start with ".." is below src. -/
theorem relSegs_no_dotdot (F A : List String)
    (h : strStartsWith (pathRelative F A) ".." = false) : F <+: A := by
  rcases Nat.lt_or_ge (commonPrefixLen F A) F.length with hlt | hge
  · exfalso
    have hshape : relSegs F A =
        ".." :: (List.replicate (F.length - commonPrefixLen F A - 1) ".." ++
          A.drop (commonPrefixLen F A)) := by
      show List.replicate (F.length - commonPrefixLen F A) ".." ++
          A.drop (commonPrefixLen F A) = _
      have hpos : F.length - commonPrefixLen F A =
          (F.length - commonPrefixLen F A - 1) + 1 := by omega
      rw [hpos, List.replicate_succ, List.cons_append]
      simp
    rw [pathRelative, hshape, joinSegs_dotdot_startsWith] at h
    cases h
  · exact commonPrefixLen_full F A (Nat.le_antisymm (commonPrefixLen_le_left F A) hge)

/-- A target accepted by resolveWithinFolder resolves below the folder root. -/
theorem resolveWithinFolder_ok_prefix (fp t : String) (abs : List String)
    (h : resolveWithinFolder fp t = .ok abs) : resolveFolder fp <+: abs := by
  rw [resolveWithinFolder_eq] at h
  by_cases hc : escapes fp t
  · rw [if_pos hc] at h; cases h
  · rw [if_neg hc] at h
    cases h
    simp only [escapes, Bool.or_eq_true, not_or, Bool.not_eq_true] at hc
    exact relSegs_no_dotdot _ _ hc.1

/-! ## Node path.extname, path.basename -/

/-- Characters of the basename of a POSIX path: strip trailing separators,
then take everything after the last remaining separator. -/
def basenameChars (p : String) : List Char :=
  ((p.data.reverse.dropWhile (fun c => c = '/')).takeWhile (fun c => c ≠ '/')).reverse

/-- Node path.extname: the suffix of the basename from its last dot, unless
there is no dot, the dot is the first character of the basename, or the
basename is exactly "..". -/
def extnameStr (p : String) : String :=
  let b := basenameChars p
  match b.reverse.findIdx? (fun c => c = '.') with
  | none => ""
  | some k =>
    let i := b.length - 1 - k
    if i = 0 then "" else if b = ['.', '.'] then "" else String.mk (b.drop i)

/-- Node path.basename(p, ext): the basename, with the suffix ext removed
when the basename ends with it and is not equal to it. -/
def basenameMinusExt (p ext : String) : String :=
  let b := String.mk (basenameChars p)
  if strEndsWith b ext && b != ext then strDropRight b ext.length else b

/-! ## Binary-extension refusal shared by the text tools -/

def binaryExtensions : List String :=
  [".pdf", ".doc", ".docx", ".xls", ".xlsx", ".ppt", ".pptx",
   ".jpg", ".jpeg", ".png", ".gif", ".webp", ".svg", ".bmp", ".ico",
   ".mp3", ".wav", ".ogg", ".m4a",
   ".mp4", ".avi", ".mov", ".webm",
   ".zip", ".tar", ".gz", ".rar"]

def isBinaryFileExtension (filePath : String) : Bool :=
  binaryExtensions.contains (strToLower (extnameStr filePath))

/-! ## Filesystem model

A filesystem maps absolute normalized segment paths to entries.  The
operations model the Node fs calls the tools perform, including their
error outcomes; errors inside a tool are caught and become error results. -/

inductive FsEntry
  | file (contents : String)
  | dir
deriving DecidableEq

def Fs := List String → Option FsEntry

def entIsFile : Option FsEntry → Bool
  | some (.file _) => true
  | _ => false

def entIsDir : Option FsEntry → Bool
  | some .dir => true
  | _ => false

/-- Node fs.writeFile: replaces or creates the file at p; fails on a
directory target or a missing parent directory. -/
def Fs.writeFile (fs : Fs) (p : List String) (c : String) : Except String Fs :=
  if entIsDir (fs p) then .error "EISDIR: illegal operation on a directory"
  else if entIsDir (fs p.dropLast) then
    .ok (fun q => if q = p then some (.file c) else fs q)
  else .error "ENOENT: no such file or directory"

/-- Node fs.mkdir recursive: creates every missing prefix of p as a
directory; fails when some prefix of p exists as a file. -/
def Fs.mkdirp (fs : Fs) (p : List String) : Except String Fs :=
  if (List.range (p.length + 1)).all (fun n => !entIsFile (fs (p.take n))) then
    .ok (fun q => if q.isPrefixOf p && (fs q).isNone then some FsEntry.dir else fs q)
  else .error "ENOTDIR: a path component is not a directory"

/-- Node fs.rename: moves the entry (with its whole subtree when it is a
directory) from src to dst, silently replacing a plain file at dst; fails
when src is missing, when one path is an ancestor of the other, or when
the parent of dst is missing. -/
def Fs.rename (fs : Fs) (src dst : List String) : Except String Fs :=
  if (fs src).isNone then .error "ENOENT: no such file or directory"
  else if src = dst then .ok fs
  else if src.isPrefixOf dst then .error "EINVAL: invalid argument"
  else if dst.isPrefixOf src then .error "ENOTEMPTY: directory not empty"
  else if !entIsDir (fs dst.dropLast) then .error "ENOENT: no such file or directory"
  else .ok (fun q =>
    if dst.isPrefixOf q then fs (src ++ q.drop dst.length)
    else if src.isPrefixOf q then none
    else fs q)

/-! ## JS global string replacement

The sed tool escapes every regex metacharacter of its find argument, so the
compiled RegExp denotes the literal find string (matched case-insensitively
under the "i" flag); the replacement string, however, is passed unescaped to
String.prototype.replace, which expands the patterns dollar-dollar,
dollar-ampersand, dollar-backquote and dollar-quote. -/

/-- Does f literally match at the start of d (char-wise, optionally
case-insensitively)? -/
def matchesAt (ci : Bool) : List Char → List Char → Bool
  | [], _ => true
  | _ :: _, [] => false
  | a :: fr, b :: dr =>
    (if ci then a.toLower == b.toLower else a == b) && matchesAt ci fr dr

/-- JS replacement-pattern expansion for a group-free regex: mat is the
matched slice, pre the part of the subject before the match, post the part
after it.  A lone final character is emitted as-is (also when it is the
dollar sign). -/
def expandRepl : List Char → List Char → List Char → List Char → List Char
  | [], _, _, _ => []
  | [c], _, _, _ => [c]
  | c :: d :: rest, mat, pre, post =>
    if c = '$' then
      if d = '$' then '$' :: expandRepl rest mat pre post
      else if d = '&' then mat ++ expandRepl rest mat pre post
      else if d = Char.ofNat 96 then pre ++ expandRepl rest mat pre post
      else if d = Char.ofNat 39 then post ++ expandRepl rest mat pre post
      else c :: d :: expandRepl rest mat pre post
    else c :: expandRepl (d :: rest) mat pre post

/-- Walk of String.prototype.replace with a global literal pattern:
leftmost matches, non-overlapping; an empty pattern matches at every
position including the end of the subject.  The walk advances the index by
at least one per step, so fuel d.length + 1 runs it to completion. -/
def jsReplaceAux (ci : Bool) (d f r : List Char) : Nat → Nat → List Char
  | _, 0 => []
  | i, fuel + 1 =>
    if h : i < d.length then
      if matchesAt ci f (d.drop i) then
        let rep := expandRepl r ((d.drop i).take f.length) (d.take i) (d.drop (i + f.length))
        if f.length = 0 then rep ++ [d.get ⟨i, h⟩] ++ jsReplaceAux ci d f r (i + 1) fuel
        else rep ++ jsReplaceAux ci d f r (i + f.length) fuel
      else d.get ⟨i, h⟩ :: jsReplaceAux ci d f r (i + 1) fuel
    else
      if matchesAt ci f (d.drop i) then expandRepl r [] d [] else []

/-- data.replace(escapedRegex(find) with the g or gi flag, repl). -/
def jsReplace (ci : Bool) (data find repl : String) : String :=
  String.mk (jsReplaceAux ci data.data find.data repl.data 0 (data.data.length + 1))

/-- Number of matches of the global literal pattern (data.match(regex)). -/
def countMatchesAux (ci : Bool) (d f : List Char) : Nat → Nat → Nat
  | _, 0 => 0
  | i, fuel + 1 =>
    if i < d.length then
      if matchesAt ci f (d.drop i) then
        if f.length = 0 then 1 + countMatchesAux ci d f (i + 1) fuel
        else 1 + countMatchesAux ci d f (i + f.length) fuel
      else countMatchesAux ci d f (i + 1) fuel
    else
      if matchesAt ci f (d.drop i) then 1 else 0

def countMatches (ci : Bool) (data find : String) : Nat :=
  countMatchesAux ci data.data find.data 0 (data.data.length + 1)

/-! ## Tool invocation results

Tool results are JSON objects; we keep them as ordered field lists built by
successResult and errorResult, exactly the shapes the source serializes. -/

inductive JVal
  | s (v : String)
  | b (v : Bool)
  | n (v : Nat)
  | matchList (v : List (Nat × String))
deriving DecidableEq

abbrev JObj := List (String × JVal)

structure ToolResult where
  success : Bool
  output : JObj
deriving DecidableEq

def successResult (tool target : String) (data : JObj) : ToolResult :=
  { success := true, output := [("tool", .s tool), ("target", .s target)] ++ data }

def errorResult (tool target msg : String) : ToolResult :=
  { success := false,
    output := [("tool", .s tool), ("target", .s target), ("error", .s msg)] }

structure ToolCtx where
  folderPath : String
  dryRun : Bool

/-- Either a thrown argument-assertion error, or the returned result, the
filesystem after the call, and the paths passed to onFileModified. -/
abbrev Invoked := Except String (ToolResult × Fs × List (List String))

def assertPathArgument (value label : String) : Except String String :=
  if (strTrim value).length = 0 then
    .error ("Argument " ++ label ++ " must be a non-empty string.")
  else .ok value

def assertStringArgument (value _label : String) : Except String String :=
  .ok value

def expectPositiveInteger (value : Int) (label : String) : Except String Nat :=
  if value ≤ 0 then .error (label ++ " must be a positive integer.")
  else .ok value.toNat

def MAX_READ_BYTES : Nat := 256 * 1024

/-- JS content.split with the regex matching an optional carriage return
followed by a newline. -/
def splitLines (s : String) : List String :=
  (strSplitChar '\n' s).map (fun l => if strEndsWith l "\r" then strDropRight l 1 else l)

def dryRunFields : JObj := [("skipped", .b true), ("reason", .s "dry_run")]

/-! ## The nine sandboxed tools -/

def invokeReadFile (pathArg : String) (ctx : ToolCtx) (fs : Fs) : Invoked := do
  let target ← assertPathArgument pathArg "path"
  if isBinaryFileExtension target then
    return (errorResult "read_file" target
      "read_file cannot be used for binary files (PDFs, images, etc.).", fs, [])
  match resolveWithinFolder ctx.folderPath target with
  | .error e => return (errorResult "read_file" target e, fs, [])
  | .ok absolute =>
    match fs absolute with
    | none =>
      return (errorResult "read_file" target "ENOENT: no such file or directory", fs, [])
    | some .dir =>
      return (errorResult "read_file" target "Target is not a file.", fs, [])
    | some (.file data) =>
      if byteLen data > MAX_READ_BYTES then
        return (errorResult "read_file" target "File exceeds 256KB read limit.", fs, [])
      else
        return (successResult "read_file" target
          [("bytes", .n (byteLen data)), ("preview", .s data)], fs, [])

def invokeWriteFile (pathArg contentsArg : String) (ctx : ToolCtx) (fs : Fs) : Invoked := do
  let target ← assertPathArgument pathArg "path"
  let contents ← assertStringArgument contentsArg "contents"
  if isBinaryFileExtension target then
    return (errorResult "write_file" target
      "write_file cannot be used for binary files (PDF, images, etc.). Use rename_file to rename existing files instead.", fs, [])
  if ctx.dryRun then
    return (successResult "write_file" target dryRunFields, fs, [])
  match resolveWithinFolder ctx.folderPath target with
  | .error e => return (errorResult "write_file" target e, fs, [])
  | .ok absolute =>
    match Fs.mkdirp fs absolute.dropLast with
    | .error e => return (errorResult "write_file" target e, fs, [])
    | .ok fs1 =>
      if (fs1 absolute).isSome then
        return (errorResult "write_file" target "Target already exists.", fs1, [])
      else
        match Fs.writeFile fs1 absolute contents with
        | .error e => return (errorResult "write_file" target e, fs1, [])
        | .ok fs2 =>
          return (successResult "write_file" target
            [("bytes", .n (byteLen contents))], fs2, [absolute])

def extMissingMsg (tool fromExt toArg : String) : String :=
  "File extension must be preserved. Original file has extension " ++ fromExt ++
    " but " ++ tool ++ " has no extension. Use " ++ toArg ++ fromExt ++ " instead."

def extMismatchMsg (tool fromExt toExt toArg : String) : String :=
  "File extension must be preserved. Original file has extension " ++ fromExt ++
    " but " ++ tool ++ " has " ++ toExt ++ ". Use " ++
    basenameMinusExt toArg toExt ++ fromExt ++ " instead."

def sourceMissingMsg : String :=
  "Source file does not exist. The file may have been renamed or moved already. Check if the file exists at a different location."

def invokeRenameFile (fromArg0 toArg0 : String) (ctx : ToolCtx) (fs : Fs) : Invoked := do
  let fromArg ← assertPathArgument fromArg0 "from"
  let toArg ← assertPathArgument toArg0 "to"
  let tgt := fromArg ++ " -> " ++ toArg
  let fromExt := extnameStr fromArg
  let toExt := extnameStr toArg
  if fromExt ≠ "" ∧ toExt = "" then
    return (errorResult "rename_file" tgt (extMissingMsg "new name" fromExt toArg), fs, [])
  if fromExt ≠ "" ∧ toExt ≠ "" ∧ fromExt ≠ toExt then
    return (errorResult "rename_file" tgt
      (extMismatchMsg "new name" fromExt toExt toArg), fs, [])
  if ctx.dryRun then
    return (successResult "rename_file" tgt dryRunFields, fs, [])
  match resolveWithinFolder ctx.folderPath fromArg with
  | .error e => return (errorResult "rename_file" tgt e, fs, [])
  | .ok fromPath =>
    match resolveWithinFolder ctx.folderPath toArg with
    | .error e => return (errorResult "rename_file" tgt e, fs, [])
    | .ok toPath =>
      if (fs fromPath).isNone then
        return (errorResult "rename_file" tgt sourceMissingMsg, fs, [])
      else if (fs toPath).isSome then
        return (errorResult "rename_file" tgt "Target already exists.", fs, [])
      else
        match Fs.mkdirp fs toPath.dropLast with
        | .error e => return (errorResult "rename_file" tgt e, fs, [])
        | .ok fs1 =>
          match Fs.rename fs1 fromPath toPath with
          | .error e => return (errorResult "rename_file" tgt e, fs1, [])
          | .ok fs2 =>
            return (successResult "rename_file" tgt
              [("renamed", .b true), ("oldName", .s fromArg), ("newName", .s toArg),
               ("message", .s ("File successfully renamed from " ++ fromArg ++ " to " ++
                 toArg ++ ". The file is now located at " ++ toArg ++ "."))],
              fs2, [toPath, fromPath])

def invokeMoveFile (fromArg0 toArg0 : String) (ctx : ToolCtx) (fs : Fs) : Invoked := do
  let fromArg ← assertPathArgument fromArg0 "from"
  let toArg ← assertPathArgument toArg0 "to"
  let tgt := fromArg ++ " -> " ++ toArg
  if ctx.dryRun then
    return (successResult "move_file" tgt dryRunFields, fs, [])
  match resolveWithinFolder ctx.folderPath fromArg with
  | .error e => return (errorResult "move_file" tgt e, fs, [])
  | .ok fromPath =>
    match resolveWithinFolder ctx.folderPath toArg with
    | .error e => return (errorResult "move_file" tgt e, fs, [])
    | .ok toPath =>
      if (fs fromPath).isNone then
        return (errorResult "move_file" tgt sourceMissingMsg, fs, [])
      else
        let isFile := entIsFile (fs fromPath)
        let fromExt := extnameStr fromArg
        let toExt := extnameStr toArg
        if isFile ∧ fromExt ≠ "" ∧ toExt = "" then
          return (errorResult "move_file" tgt
            (extMissingMsg "destination" fromExt toArg), fs, [])
        else if isFile ∧ fromExt ≠ "" ∧ toExt ≠ "" ∧ fromExt ≠ toExt then
          return (errorResult "move_file" tgt
            (extMismatchMsg "destination" fromExt toExt toArg), fs, [])
        else if (fs toPath).isSome then
          return (errorResult "move_file" tgt "Target already exists.", fs, [])
        else
          match Fs.mkdirp fs toPath.dropLast with
          | .error e => return (errorResult "move_file" tgt e, fs, [])
          | .ok fs1 =>
            match Fs.rename fs1 fromPath toPath with
            | .error e => return (errorResult "move_file" tgt e, fs1, [])
            | .ok fs2 =>
              return (successResult "move_file" tgt [], fs2, [toPath, fromPath])

def invokeGrep (pathArg patternArg : String) (ci : Bool) (ctx : ToolCtx) (fs : Fs) :
    Invoked := do
  let target ← assertPathArgument pathArg "path"
  let pattern ← assertStringArgument patternArg "pattern"
  if isBinaryFileExtension target then
    return (errorResult "grep" target
      "grep cannot be used for binary files (PDFs, images, etc.).", fs, [])
  match resolveWithinFolder ctx.folderPath target with
  | .error e => return (errorResult "grep" target e, fs, [])
  | .ok absolute =>
    match fs absolute with
    | none => return (errorResult "grep" target "ENOENT: no such file or directory", fs, [])
    | some .dir => return (errorResult "grep" target "Target is not a file.", fs, [])
    | some (.file data) =>
      if byteLen data > MAX_READ_BYTES then
        return (errorResult "grep" target "File exceeds 256KB read limit.", fs, [])
      else
        let lines := splitLines data
        let searchPattern := if ci then strToLower pattern else pattern
        let found := (lines.enum.filterMap fun p =>
          if strContains (if ci then strToLower p.2 else p.2) searchPattern
          then some (p.1 + 1, p.2) else none)
        return (successResult "grep" target
          [("pattern", .s pattern), ("caseInsensitive", .b ci),
           ("matchesFound", .n found.length), ("matches", .matchList (found.take 100)),
           ("truncated", .b (decide (found.length > 100)))], fs, [])

def invokeSed (pathArg findArg replaceArg : String) (ci : Bool) (ctx : ToolCtx)
    (fs : Fs) : Invoked := do
  let target ← assertPathArgument pathArg "path"
  let find ← assertStringArgument findArg "find"
  let replace ← assertStringArgument replaceArg "replace"
  if isBinaryFileExtension target then
    return (errorResult "sed" target
      "sed cannot be used for binary files (PDF, images, etc.). Use rename_file to rename existing files instead.", fs, [])
  if ctx.dryRun then
    return (successResult "sed" target
      (dryRunFields ++ [("find", .s find), ("replace", .s replace)]), fs, [])
  match resolveWithinFolder ctx.folderPath target with
  | .error e => return (errorResult "sed" target e, fs, [])
  | .ok absolute =>
    if (fs absolute).isNone then
      return (errorResult "sed" target sourceMissingMsg, fs, [])
    else
      match fs absolute with
      | none => return (errorResult "sed" target "ENOENT: no such file or directory", fs, [])
      | some .dir => return (errorResult "sed" target "Target is not a file.", fs, [])
      | some (.file data) =>
        if byteLen data > MAX_READ_BYTES then
          return (errorResult "sed" target "File exceeds 256KB read limit.", fs, [])
        else
          let replacementCount := countMatches ci data find
          let modified := jsReplace ci data find replace
          if modified ≠ data then
            match resolveWithinFolder ctx.folderPath target with
            | .error e => return (errorResult "sed" target e, fs, [])
            | .ok absolute2 =>
              match Fs.writeFile fs absolute2 modified with
              | .error e => return (errorResult "sed" target e, fs, [])
              | .ok fs2 =>
                return (successResult "sed" target
                  [("find", .s find), ("replace", .s replace), ("caseInsensitive", .b ci),
                   ("replacements", .n replacementCount), ("modified", .b true)],
                  fs2, [absolute2])
          else
            return (successResult "sed" target
              [("find", .s find), ("replace", .s replace), ("caseInsensitive", .b ci),
               ("replacements", .n replacementCount), ("modified", .b false)], fs, [])

def invokeHead (pathArg : String) (linesArg : Option Int) (ctx : ToolCtx) (fs : Fs) :
    Invoked := do
  let target ← assertPathArgument pathArg "path"
  if isBinaryFileExtension target then
    return (errorResult "head" target
      "head cannot be used for binary files (PDFs, images, etc.).", fs, [])
  match (match linesArg with
         | some v => expectPositiveInteger v "lines"
         | none => .ok 10 : Except String Nat) with
  | .error e => return (errorResult "head" target e, fs, [])
  | .ok lines =>
    match resolveWithinFolder ctx.folderPath target with
    | .error e => return (errorResult "head" target e, fs, [])
    | .ok absolute =>
      match fs absolute with
      | none => return (errorResult "head" target "ENOENT: no such file or directory", fs, [])
      | some .dir => return (errorResult "head" target "Target is not a file.", fs, [])
      | some (.file data) =>
        if byteLen data > MAX_READ_BYTES then
          return (errorResult "head" target "File exceeds 256KB read limit.", fs, [])
        else
          let fileLines := splitLines data
          let requestedLines := min lines fileLines.length
          let preview := intercalateStr "\n" (fileLines.take requestedLines)
          return (successResult "head" target
            [("lines", .n requestedLines), ("totalLines", .n fileLines.length),
             ("preview", .s preview)], fs, [])

def invokeTail (pathArg : String) (linesArg : Option Int) (ctx : ToolCtx) (fs : Fs) :
    Invoked := do
  let target ← assertPathArgument pathArg "path"
  if isBinaryFileExtension target then
    return (errorResult "tail" target
      "tail cannot be used for binary files (PDFs, images, etc.).", fs, [])
  match (match linesArg with
         | some v => expectPositiveInteger v "lines"
         | none => .ok 10 : Except String Nat) with
  | .error e => return (errorResult "tail" target e, fs, [])
  | .ok lines =>
    match resolveWithinFolder ctx.folderPath target with
    | .error e => return (errorResult "tail" target e, fs, [])
    | .ok absolute =>
      match fs absolute with
      | none => return (errorResult "tail" target "ENOENT: no such file or directory", fs, [])
      | some .dir => return (errorResult "tail" target "Target is not a file.", fs, [])
      | some (.file data) =>
        if byteLen data > MAX_READ_BYTES then
          return (errorResult "tail" target "File exceeds 256KB read limit.", fs, [])
        else
          let fileLines := splitLines data
          let requestedLines := min lines fileLines.length
          let preview := intercalateStr "\n"
            (fileLines.drop (fileLines.length - requestedLines))
          return (successResult "tail" target
            [("lines", .n requestedLines), ("totalLines", .n fileLines.length),
             ("preview", .s preview)], fs, [])

def invokeCreateFolder (pathArg : String) (ctx : ToolCtx) (fs : Fs) : Invoked := do
  let target ← assertPathArgument pathArg "path"
  if ctx.dryRun then
    return (successResult "create_folder" target dryRunFields, fs, [])
  match resolveWithinFolder ctx.folderPath target with
  | .error e => return (errorResult "create_folder" target e, fs, [])
  | .ok absolute =>
    if (fs absolute).isSome then
      return (errorResult "create_folder" target "Target already exists.", fs, [])
    else
      match Fs.mkdirp fs absolute with
      | .error e => return (errorResult "create_folder" target e, fs, [])
      | .ok fs1 => return (successResult "create_folder" target [], fs1, [])

/-- One invocation of one of the nine registered tools. -/
inductive ToolCall
  | read_file (p : String)
  | write_file (p contents : String)
  | rename_file (src dst : String)
  | move_file (src dst : String)
  | grep (p pat : String) (ci : Bool)
  | sed (p find repl : String) (ci : Bool)
  | head (p : String) (lines : Option Int)
  | tail (p : String) (lines : Option Int)
  | create_folder (p : String)

def invokeTool : ToolCall → ToolCtx → Fs → Invoked
  | .read_file p, ctx, fs => invokeReadFile p ctx fs
  | .write_file p c, ctx, fs => invokeWriteFile p c ctx fs
  | .rename_file s d, ctx, fs => invokeRenameFile s d ctx fs
  | .move_file s d, ctx, fs => invokeMoveFile s d ctx fs
  | .grep p pat ci, ctx, fs => invokeGrep p pat ci ctx fs
  | .sed p f r ci, ctx, fs => invokeSed p f r ci ctx fs
  | .head p l, ctx, fs => invokeHead p l ctx fs
  | .tail p l, ctx, fs => invokeTail p l ctx fs
  | .create_folder p, ctx, fs => invokeCreateFolder p ctx fs

/-- The path-typed arguments of a tool call. -/
def pathArgs : ToolCall → List String
  | .read_file p => [p]
  | .write_file p _ => [p]
  | .rename_file s d => [s, d]
  | .move_file s d => [s, d]
  | .grep p _ _ => [p]
  | .sed p _ _ _ => [p]
  | .head p _ => [p]
  | .tail p _ => [p]
  | .create_folder p => [p]

/-! ## File classifier -/

inductive FileCategory
  | TEXT_DOCUMENT
  | CODE_FILE
  | STRUCTURED_DATA
  | IMAGE
  | PDF
  | AUDIO
  | VIDEO
  | OFFICE_DOC
  | ARCHIVE
  | FOLDER
deriving DecidableEq

def imageExts : List String :=
  [".jpg", ".jpeg", ".png", ".gif", ".webp", ".svg", ".bmp", ".ico", ".heic", ".heif"]

def videoExts : List String :=
  [".mp4", ".avi", ".mov", ".webm", ".mkv", ".flv", ".wmv"]

def audioExts : List String :=
  [".mp3", ".wav", ".ogg", ".m4a", ".flac", ".aac", ".wma"]

def officeExts : List String :=
  [".doc", ".docx", ".xls", ".xlsx", ".ppt", ".pptx", ".odt", ".ods", ".odp"]

def archiveExts : List String :=
  [".zip", ".tar", ".gz", ".rar", ".7z", ".tgz", ".bz2"]

def codeExts : List String :=
  [".js", ".ts", ".jsx", ".tsx", ".py", ".java", ".c", ".cpp", ".cs", ".go", ".rs",
   ".rb", ".php", ".swift", ".kt", ".scala", ".sh", ".bash", ".zsh"]

def dataExts : List String :=
  [".json", ".xml", ".yaml", ".yml", ".toml", ".csv"]

def textExts : List String :=
  [".txt", ".md", ".markdown", ".log", ".html", ".htm", ".css", ".scss", ".sass", ".less"]

/-- JS mimeType?.startsWith(p): false when the mime type is absent. -/
def mimeStarts (mime : Option String) (p : String) : Bool :=
  match mime with
  | some m => strStartsWith m p
  | none => false

/-- classifyFile from the source: one branch per category, each branch
testing its extension table and (for image, pdf, video, audio, text) its
mime condition, in the order the source writes them; everything else falls
through to TEXT_DOCUMENT. -/
def classifyFile (filePath : String) (mimeType : Option String) : FileCategory :=
  let ext := strToLower (extnameStr filePath)
  if imageExts.contains ext || mimeStarts mimeType "image/" then .IMAGE
  else if ext == ".pdf" || mimeType == some "application/pdf" then .PDF
  else if videoExts.contains ext || mimeStarts mimeType "video/" then .VIDEO
  else if audioExts.contains ext || mimeStarts mimeType "audio/" then FileCategory.AUDIO
  else if officeExts.contains ext then .OFFICE_DOC
  else if archiveExts.contains ext then .ARCHIVE
  else if codeExts.contains ext then .CODE_FILE
  else if dataExts.contains ext then .STRUCTURED_DATA
  else if textExts.contains ext || mimeStarts mimeType "text/" then .TEXT_DOCUMENT
  else .TEXT_DOCUMENT

/-- Modelled from the spec: the classifier rule as the claim states it,
with the four mime prefixes short-circuiting to their category before any
extension table is consulted. -/
def specClassifyFile (filePath : String) (mimeType : Option String) : FileCategory :=
  let ext := strToLower (extnameStr filePath)
  if mimeStarts mimeType "image/" then .IMAGE
  else if mimeStarts mimeType "video/" then .VIDEO
  else if mimeStarts mimeType "audio/" then FileCategory.AUDIO
  else if mimeStarts mimeType "text/" then .TEXT_DOCUMENT
  else if imageExts.contains ext then .IMAGE
  else if ext == ".pdf" || mimeType == some "application/pdf" then .PDF
  else if videoExts.contains ext then .VIDEO
  else if audioExts.contains ext then FileCategory.AUDIO
  else if officeExts.contains ext then .OFFICE_DOC
  else if archiveExts.contains ext then .ARCHIVE
  else if codeExts.contains ext then .CODE_FILE
  else if dataExts.contains ext then .STRUCTURED_DATA
  else .TEXT_DOCUMENT

/-! ## Text content provider -/

/-- The text slice of the configurable SizeThresholds record; absent fields
fall back to the defaults the provider hard-codes. -/
structure TextThresholds where
  fullContentMax : Option Nat := none
  partialContentMax : Option Nat := none
  metadataOnlyAbove : Option Nat := none

/-- DEFAULT_THRESHOLDS.text from the configuration module. -/
def DEFAULT_TEXT_THRESHOLDS : TextThresholds :=
  { fullContentMax := some (10 * 1024),
    partialContentMax := some (50 * 1024),
    metadataOnlyAbove := some (100 * 1024) }

/-- TextContentProvider.shouldSendContent. -/
def textShouldSendContent (th : TextThresholds) (size : Nat) : Bool :=
  size ≤ th.metadataOnlyAbove.getD (100 * 1024)

/-- The two content strategies of determineContentType. -/
inductive ContentKind
  | full
  | partialKind
deriving DecidableEq

/-- TextContentProvider.determineContentType. -/
def textDetermineContentType (th : TextThresholds) (size : Nat) : ContentKind :=
  if size ≤ th.fullContentMax.getD (10 * 1024) then .full else .partialKind

/-- The body part of a FileContent record. -/
inductive BodyContent
  | none
  | full (data : String)
  | partialBody (data : String) (originalSize includedSize : Nat) (omittedSize : Int)
deriving DecidableEq

/-- The partial-content line list assembled by TextContentProvider:
optional CSV-header section, first 50 lines, omission marker when lines
were omitted, last 50 lines. -/
def textPartialLines (lines : List String) (extension : String) : List String :=
  let headLines := lines.take 50
  let tailLines := lines.drop (lines.length - 50)
  let omitted := lines.length - 100
  let csvHeader : List String :=
    if extension = ".csv" ∧ lines.length > 0 then [lines.headD ""] else []
  (if csvHeader.length > 0 then ["=== CSV Header ==="] ++ csvHeader ++ [""] else []) ++
    ["=== First 50 lines ==="] ++ headLines ++
    (if omitted > 0 then ["\n... [" ++ toString omitted ++ " lines omitted] ...\n"] else []) ++
    ["=== Last 50 lines ==="] ++ tailLines

/-- TextContentProvider.extractContent: full content, or the head-tail
partial strategy with its truncation record. -/
def textExtractContent (content : String) (kind : ContentKind) (extension : String)
    (size : Nat) : BodyContent :=
  match kind with
  | .full => .full content
  | .partialKind =>
    let lines := strSplitChar '\n' content
    let partialContent := intercalateStr "\n" (textPartialLines lines extension)
    .partialBody partialContent size (byteLen partialContent)
      ((size : Int) - (byteLen partialContent : Int))

/-- ContentProvider.provideContent template restricted to its content
field: gate on shouldSendContent, choose the strategy, extract. -/
def textProvideContent (th : TextThresholds) (size : Nat) (content : String)
    (extension : String) : BodyContent :=
  if !(textShouldSendContent th size) then .none
  else textExtractContent content (textDetermineContentType th size) extension size

/-! ## Per-folder job queue

The orchestrator keeps one promise chain per folder; enqueueFile first
consults the ignored-file set and drops the event, otherwise appends a job
to the chain; the chain runs jobs one at a time in append order and a
catch on each link keeps a rejection from breaking the chain.  The machine
below is that chain for one folder: jobs get consecutive ids at enqueue
time; start fires only when no job is running and takes the queue head;
finish settles the running job (ok records fulfillment, not ok a caught
rejection) and frees the chain. -/

inductive QEvent
  | started (id : Nat)
  | finished (id : Nat) (ok : Bool)
deriving DecidableEq

structure QueueState where
  pending : List Nat
  running : Option Nat
  trace : List QEvent
  nextId : Nat
  ignoredPaths : List String

inductive QStep
  | enqueue (path : String)
  | start
  | finish (ok : Bool)
  | setIgnored (paths : List String)

def qstep (σ : QueueState) : QStep → QueueState
  | .enqueue path =>
    if σ.ignoredPaths.contains path then σ
    else { σ with pending := σ.pending ++ [σ.nextId], nextId := σ.nextId + 1 }
  | .start =>
    match σ.running, σ.pending with
    | Option.none, j :: rest =>
      { σ with running := some j, pending := rest, trace := σ.trace ++ [.started j] }
    | _, _ => σ
  | .finish ok =>
    match σ.running with
    | some r => { σ with running := Option.none, trace := σ.trace ++ [.finished r ok] }
    | Option.none => σ
  | .setIgnored paths => { σ with ignoredPaths := paths }

def initQueue : QueueState :=
  { pending := [], running := Option.none, trace := [], nextId := 0, ignoredPaths := [] }

def runQueue : QueueState → List QStep → QueueState
  | σ, [] => σ
  | σ, e :: es => runQueue (qstep σ e) es

inductive QReachable : QueueState → Prop
  | init : QReachable initQueue
  | step (σ : QueueState) (e : QStep) : QReachable σ → QReachable (qstep σ e)

/-! ## Self-change suppressor

The orchestrator keeps ignoredFiles (path to mark timestamp) and
ignoredFileTimeouts (path to pending cleanup).  ignoreFile stores the
current time and replaces the pending cleanup with one due
IGNORE_DURATION_MS later; isFileIgnored answers from the timestamp and
drops an entry it finds expired; a cleanup timer fires no earlier than its
deadline and removes both entries.  Paths are the resolved absolute
segment lists, times are milliseconds. -/

def IGNORE_DURATION_MS : Nat := 10000

structure IgnoreState where
  ignoredFiles : List String → Option Nat
  timeouts : List String → Option Nat

def ignoreFile (σ : IgnoreState) (p : List String) (now : Nat) : IgnoreState :=
  { ignoredFiles := fun q => if q = p then some now else σ.ignoredFiles q,
    timeouts := fun q => if q = p then some (now + IGNORE_DURATION_MS) else σ.timeouts q }

def isFileIgnored (σ : IgnoreState) (p : List String) (now : Nat) :
    Bool × IgnoreState :=
  match σ.ignoredFiles p with
  | Option.none => (false, σ)
  | some ts =>
    if now - ts > IGNORE_DURATION_MS then
      (false, { σ with ignoredFiles := fun q => if q = p then Option.none else σ.ignoredFiles q })
    else (true, σ)

/-- The scheduled cleanup firing at time now: it removes the entries only
when its deadline has been reached (a replaced timer never fires because
ignoreFile overwrote its deadline). -/
def timerFire (σ : IgnoreState) (p : List String) (now : Nat) : IgnoreState :=
  match σ.timeouts p with
  | some d =>
    if d ≤ now then
      { ignoredFiles := fun q => if q = p then Option.none else σ.ignoredFiles q,
        timeouts := fun q => if q = p then Option.none else σ.timeouts q }
    else σ
  | Option.none => σ

inductive IgnEvent
  | mark (p : List String)
  | probe (p : List String)
  | fire (p : List String)
deriving DecidableEq

def ignStep (σ : IgnoreState) : IgnEvent × Nat → IgnoreState
  | (.mark p, t) => ignoreFile σ p t
  | (.probe p, t) => (isFileIgnored σ p t).2
  | (.fire p, t) => timerFire σ p t

def runIgn : IgnoreState → List (IgnEvent × Nat) → IgnoreState
  | σ, [] => σ
  | σ, e :: es => runIgn (ignStep σ e) es

/-! ## Classifier lemmas and claim C9 -/

/-- A string starting with a nonempty pattern begins with its first char. -/
theorem startsWith_head (m : String) (c : Char) (rest : List Char)
    (h : strStartsWith m (String.mk (c :: rest)) = true) :
    ∃ tl, m.data = c :: tl := by
  unfold strStartsWith at h
  cases hm : m.data with
  | nil => rw [hm] at h; simp [List.isPrefixOf] at h
  | cons x xs =>
    rw [hm] at h
    simp only [List.isPrefixOf, Bool.and_eq_true, beq_iff_eq] at h
    exact ⟨xs, by rw [h.1]⟩

theorem mimeStarts_head (mime : Option String) (c : Char) (rest : List Char)
    (h : mimeStarts mime (String.mk (c :: rest)) = true) :
    ∃ m tl, mime = some m ∧ m.data = c :: tl := by
  cases mime with
  | none => simp [mimeStarts] at h
  | some m =>
    obtain ⟨tl, htl⟩ := startsWith_head m c rest h
    exact ⟨m, tl, rfl, htl⟩

theorem videoMime_not_image (mime : Option String)
    (h : mimeStarts mime "video/" = true) : mimeStarts mime "image/" = false := by
  obtain ⟨m, tl, hm, hd⟩ := mimeStarts_head mime 'v' "ideo/".data h
  subst hm
  cases hi : mimeStarts (some m) "image/" with
  | false => rfl
  | true =>
    obtain ⟨m', tl', hm', hd'⟩ := mimeStarts_head (some m) 'i' "mage/".data hi
    cases hm'
    rw [hd] at hd'
    cases hd'

theorem videoMime_not_pdf (mime : Option String)
    (h : mimeStarts mime "video/" = true) : (mime == some "application/pdf") = false := by
  obtain ⟨m, tl, hm, hd⟩ := mimeStarts_head mime 'v' "ideo/".data h
  subst hm
  cases he : (some m == some "application/pdf") with
  | false => rfl
  | true =>
    have : m = "application/pdf" := by simpa using he
    subst this
    cases hd

theorem audioMime_not_image (mime : Option String)
    (h : mimeStarts mime "audio/" = true) : mimeStarts mime "image/" = false := by
  obtain ⟨m, tl, hm, hd⟩ := mimeStarts_head mime 'a' "udio/".data h
  subst hm
  cases hi : mimeStarts (some m) "image/" with
  | false => rfl
  | true =>
    obtain ⟨m', tl', hm', hd'⟩ := mimeStarts_head (some m) 'i' "mage/".data hi
    cases hm'
    rw [hd] at hd'
    cases hd'

theorem audioMime_not_pdf (mime : Option String)
    (h : mimeStarts mime "audio/" = true) : (mime == some "application/pdf") = false := by
  obtain ⟨m, tl, hm, hd⟩ := mimeStarts_head mime 'a' "udio/".data h
  subst hm
  cases he : (some m == some "application/pdf") with
  | false => rfl
  | true =>
    have : m = "application/pdf" := by simpa using he
    subst this
    simp [mimeStarts, strStartsWith, List.isPrefixOf] at h

theorem audioMime_not_video (mime : Option String)
    (h : mimeStarts mime "audio/" = true) : mimeStarts mime "video/" = false := by
  obtain ⟨m, tl, hm, hd⟩ := mimeStarts_head mime 'a' "udio/".data h
  subst hm
  cases hi : mimeStarts (some m) "video/" with
  | false => rfl
  | true =>
    obtain ⟨m', tl', hm', hd'⟩ := mimeStarts_head (some m) 'v' "ideo/".data hi
    cases hm'
    rw [hd] at hd'
    cases hd'

/-- C9 counterexample: a file whose extension is an image extension but
whose mime type is a video type is classified IMAGE by the code, while the
claimed mime short-circuit rule would classify it VIDEO. -/
theorem c9_classifier_counterexample :
    classifyFile "photo.jpg" (some "video/mp4") = FileCategory.IMAGE ∧
    specClassifyFile "photo.jpg" (some "video/mp4") = FileCategory.VIDEO ∧
    FileCategory.IMAGE ≠ FileCategory.VIDEO := by
  refine ⟨by decide, by decide, by decide⟩

/-- C9 (amended): classifyFile depends only on the lowercased final
extension and the mime type; an image mime always short-circuits; a video
or audio mime decides unless an earlier branch (image extension, pdf,
and for audio also video extension) claims the file first; a file whose
extension is in no earlier table and that carries no mime type is
TEXT_DOCUMENT; multi-dot names classify by their final extension
(.tar.gz is ARCHIVE). -/
theorem c9_classifier_rules :
    (∀ p q mime, strToLower (extnameStr p) = strToLower (extnameStr q) →
      classifyFile p mime = classifyFile q mime)
    ∧ (∀ p mime, mimeStarts mime "image/" = true →
      classifyFile p mime = FileCategory.IMAGE)
    ∧ (∀ p mime, mimeStarts mime "video/" = true →
      imageExts.contains (strToLower (extnameStr p)) = false →
      strToLower (extnameStr p) ≠ ".pdf" →
      classifyFile p mime = FileCategory.VIDEO)
    ∧ (∀ p mime, mimeStarts mime "audio/" = true →
      imageExts.contains (strToLower (extnameStr p)) = false →
      strToLower (extnameStr p) ≠ ".pdf" →
      videoExts.contains (strToLower (extnameStr p)) = false →
      classifyFile p mime = FileCategory.AUDIO)
    ∧ (∀ p, imageExts.contains (strToLower (extnameStr p)) = false →
      strToLower (extnameStr p) ≠ ".pdf" →
      videoExts.contains (strToLower (extnameStr p)) = false →
      audioExts.contains (strToLower (extnameStr p)) = false →
      officeExts.contains (strToLower (extnameStr p)) = false →
      archiveExts.contains (strToLower (extnameStr p)) = false →
      codeExts.contains (strToLower (extnameStr p)) = false →
      dataExts.contains (strToLower (extnameStr p)) = false →
      classifyFile p Option.none = FileCategory.TEXT_DOCUMENT)
    ∧ classifyFile "backup.tar.gz" Option.none = FileCategory.ARCHIVE := by
  refine ⟨?_, ?_, ?_, ?_, ?_, by decide⟩
  · intro p q mime h
    simp only [classifyFile, h]
  · intro p mime h
    simp [classifyFile, h]
  · intro p mime h1 h2 h3
    have hv1 := videoMime_not_image mime h1
    have hv2 := videoMime_not_pdf mime h1
    have h2' : strToLower (extnameStr p) ∉ imageExts := by simpa using h2
    simp [classifyFile, h1, h2', h3, hv1, hv2]
  · intro p mime h1 h2 h3 h4
    have ha1 := audioMime_not_image mime h1
    have ha2 := audioMime_not_pdf mime h1
    have ha3 := audioMime_not_video mime h1
    have h2' : strToLower (extnameStr p) ∉ imageExts := by simpa using h2
    have h4' : strToLower (extnameStr p) ∉ videoExts := by simpa using h4
    simp [classifyFile, h1, h2', h3, h4', ha1, ha2, ha3]
  · intro p h1 h2 h3 h4 h5 h6 h7 h8
    have h1' : strToLower (extnameStr p) ∉ imageExts := by simpa using h1
    have h3' : strToLower (extnameStr p) ∉ videoExts := by simpa using h3
    have h4' : strToLower (extnameStr p) ∉ audioExts := by simpa using h4
    have h5' : strToLower (extnameStr p) ∉ officeExts := by simpa using h5
    have h6' : strToLower (extnameStr p) ∉ archiveExts := by simpa using h6
    have h7' : strToLower (extnameStr p) ∉ codeExts := by simpa using h7
    have h8' : strToLower (extnameStr p) ∉ dataExts := by simpa using h8
    simp [classifyFile, mimeStarts, h1', h2, h3', h4', h5', h6', h7', h8']

/-- C9 witness: an unknown extension with a video mime is classified VIDEO
by the third rule. -/
theorem c9_classifier_rules_witness :
    classifyFile "clip.weird" (some "video/mp4") = FileCategory.VIDEO :=
  c9_classifier_rules.2.2.1 "clip.weird" (some "video/mp4")
    (by decide) (by decide) (by decide)

/-! ## Ignore-window lemmas and claim C6 -/

/-- While every intervening event happens before the mark expires and none
re-marks the path, the entry and its deadline survive unchanged. -/
theorem ign_stable (p : List String) (m : Nat) (evs : List (IgnEvent × Nat))
    (ht : ∀ e ∈ evs, e.2 < m + IGNORE_DURATION_MS)
    (hm : ∀ e ∈ evs, e.1 ≠ IgnEvent.mark p)
    (σ : IgnoreState)
    (h1 : σ.ignoredFiles p = some m)
    (h2 : σ.timeouts p = some (m + IGNORE_DURATION_MS)) :
    (runIgn σ evs).ignoredFiles p = some m ∧
      (runIgn σ evs).timeouts p = some (m + IGNORE_DURATION_MS) := by
  induction evs generalizing σ with
  | nil => exact ⟨h1, h2⟩
  | cons e es ih =>
    have hte : e.2 < m + IGNORE_DURATION_MS := ht e (List.mem_cons_self e es)
    have hme : e.1 ≠ IgnEvent.mark p := hm e (List.mem_cons_self e es)
    obtain ⟨ev, t⟩ := e
    refine ih (fun x hx => ht x (List.mem_cons_of_mem _ hx))
      (fun x hx => hm x (List.mem_cons_of_mem _ hx)) (ignStep σ (ev, t)) ?_ ?_
    · cases ev with
      | mark q =>
        have hq : q ≠ p := fun h => hme (by simp [h])
        have hpq : p ≠ q := fun h => hq h.symm
        simp [ignStep, ignoreFile, hpq, h1]
      | probe q =>
        by_cases hq : q = p
        · subst hq
          have : ¬ (t - m > IGNORE_DURATION_MS) := by omega
          simp [ignStep, isFileIgnored, h1, this]
        · simp only [ignStep, isFileIgnored]
          cases hs : σ.ignoredFiles q with
          | none => simpa using h1
          | some ts =>
            have hpq : p ≠ q := fun h => hq h.symm
            by_cases he : t - ts > IGNORE_DURATION_MS
            · simp [he, hpq, h1]
            · simpa [he] using h1
      | fire q =>
        by_cases hq : q = p
        · subst hq
          have : ¬ (m + IGNORE_DURATION_MS ≤ t) := by omega
          simp [ignStep, timerFire, h2, this, h1]
        · simp only [ignStep, timerFire]
          cases hs : σ.timeouts q with
          | none => simpa using h1
          | some d =>
            have hpq : p ≠ q := fun h => hq h.symm
            by_cases he : d ≤ t
            · simp [he, hpq, h1]
            · simpa [he] using h1
    · cases ev with
      | mark q =>
        have hq : q ≠ p := fun h => hme (by simp [h])
        have hpq : p ≠ q := fun h => hq h.symm
        simp [ignStep, ignoreFile, hpq, h2]
      | probe q =>
        by_cases hq : q = p
        · subst hq
          have : ¬ (t - m > IGNORE_DURATION_MS) := by omega
          simp [ignStep, isFileIgnored, h1, this, h2]
        · simp only [ignStep, isFileIgnored]
          cases hs : σ.ignoredFiles q with
          | none => simpa using h2
          | some ts =>
            by_cases he : t - ts > IGNORE_DURATION_MS
            · simp [he, h2]
            · simpa [he] using h2
      | fire q =>
        by_cases hq : q = p
        · subst hq
          have : ¬ (m + IGNORE_DURATION_MS ≤ t) := by omega
          simp [ignStep, timerFire, h2, this]
        · simp only [ignStep, timerFire]
          cases hs : σ.timeouts q with
          | none => simpa using h2
          | some d =>
            have hpq : p ≠ q := fun h => hq h.symm
            by_cases he : d ≤ t
            · simp [he, hpq, h2]
            · simpa [he] using h2

/-- Without a new mark of p, the entry either keeps its timestamp or is
removed; it can never hold another value. -/
theorem ign_entry_cases (p : List String) (m : Nat) (evs : List (IgnEvent × Nat))
    (hm : ∀ e ∈ evs, e.1 ≠ IgnEvent.mark p)
    (σ : IgnoreState)
    (h1 : σ.ignoredFiles p = some m ∨ σ.ignoredFiles p = Option.none) :
    (runIgn σ evs).ignoredFiles p = some m ∨
      (runIgn σ evs).ignoredFiles p = Option.none := by
  induction evs generalizing σ with
  | nil => exact h1
  | cons e es ih =>
    have hme : e.1 ≠ IgnEvent.mark p := hm e (List.mem_cons_self e es)
    obtain ⟨ev, t⟩ := e
    refine ih (fun x hx => hm x (List.mem_cons_of_mem _ hx)) (ignStep σ (ev, t)) ?_
    cases ev with
    | mark q =>
      have hq : q ≠ p := fun h => hme (by simp [h])
      have hpq : p ≠ q := fun h => hq h.symm
      simpa [ignStep, ignoreFile, hpq] using h1
    | probe q =>
      simp only [ignStep, isFileIgnored]
      cases hs : σ.ignoredFiles q with
      | none => simpa using h1
      | some ts =>
        by_cases he : t - ts > IGNORE_DURATION_MS
        · by_cases hq : q = p
          · subst hq; simp [he]
          · have hpq : p ≠ q := fun h => hq h.symm
            simpa [he, hpq] using h1
        · simpa [he] using h1
    | fire q =>
      simp only [ignStep, timerFire]
      cases hs : σ.timeouts q with
      | none => simpa using h1
      | some d =>
        by_cases he : d ≤ t
        · by_cases hq : q = p
          · subst hq; simp [he]
          · have hpq : p ≠ q := fun h => hq h.symm
            simpa [he, hpq] using h1
        · simpa [he] using h1

/-- C6: after a mark at time m, is_ignored stays true at any probe before
m + 10 s (whatever probes and timer firings happen in between); it is false
at any probe after the window (certainly by 20 s); re-marking replaces the
cleanup deadline with its own mark time + 10 s; a probe that finds an
expired entry removes it from the map. -/
theorem c6_ignore_window :
    (∀ (σ : IgnoreState) (p : List String) (m t : Nat) (evs : List (IgnEvent × Nat)),
      (∀ e ∈ evs, e.2 ≤ t) → (∀ e ∈ evs, e.1 ≠ IgnEvent.mark p) →
      t < m + IGNORE_DURATION_MS →
      (isFileIgnored (runIgn (ignoreFile σ p m) evs) p t).1 = true)
    ∧ (∀ (σ : IgnoreState) (p : List String) (m t : Nat) (evs : List (IgnEvent × Nat)),
      (∀ e ∈ evs, e.1 ≠ IgnEvent.mark p) →
      IGNORE_DURATION_MS < t - m →
      (isFileIgnored (runIgn (ignoreFile σ p m) evs) p t).1 = false)
    ∧ (∀ (σ : IgnoreState) (p : List String) (m2 : Nat),
      (ignoreFile σ p m2).timeouts p = some (m2 + IGNORE_DURATION_MS) ∧
      (ignoreFile σ p m2).ignoredFiles p = some m2 ∧
      ∀ q, q ≠ p → (ignoreFile σ p m2).timeouts q = σ.timeouts q ∧
        (ignoreFile σ p m2).ignoredFiles q = σ.ignoredFiles q)
    ∧ (∀ (σ : IgnoreState) (p : List String) (ts t : Nat),
      σ.ignoredFiles p = some ts → IGNORE_DURATION_MS < t - ts →
      (isFileIgnored σ p t).1 = false ∧
        (isFileIgnored σ p t).2.ignoredFiles p = Option.none) := by
  refine ⟨?_, ?_, ?_, ?_⟩
  · intro σ p m t evs ht hm hlt
    have hstable := ign_stable p m evs
      (fun e he => lt_of_le_of_lt (ht e he) hlt) hm (ignoreFile σ p m)
      (by simp [ignoreFile]) (by simp [ignoreFile])
    have hn : ¬ (t - m > IGNORE_DURATION_MS) := by omega
    simp [isFileIgnored, hstable.1, hn]
  · intro σ p m t evs hm hgt
    have hcases := ign_entry_cases p m evs hm (ignoreFile σ p m)
      (Or.inl (by simp [ignoreFile]))
    rcases hcases with h | h
    · simp [isFileIgnored, h, hgt]
    · simp [isFileIgnored, h]
  · intro σ p m2
    refine ⟨by simp [ignoreFile], by simp [ignoreFile], ?_⟩
    intro q hq
    exact ⟨by simp [ignoreFile, hq], by simp [ignoreFile, hq]⟩
  · intro σ p ts t h1 h2
    constructor
    · simp [isFileIgnored, h1, h2]
    · simp [isFileIgnored, h1, h2]

/-- C6 witness: mark at 1000 ms; a probe at 9000 ms and a timer firing at
9500 ms intervene; a probe at 10999 ms still reports ignored, and a probe
at 21000 ms (20 s after the mark) reports not ignored. -/
theorem c6_ignore_window_witness :
    (isFileIgnored
      (runIgn (ignoreFile ⟨fun _ => Option.none, fun _ => Option.none⟩ ["w", "a.pdf"] 1000)
        [(IgnEvent.probe ["w", "a.pdf"], 9000), (IgnEvent.fire ["w", "a.pdf"], 9500)])
      ["w", "a.pdf"] 10999).1 = true ∧
    (isFileIgnored
      (runIgn (ignoreFile ⟨fun _ => Option.none, fun _ => Option.none⟩ ["w", "a.pdf"] 1000)
        [(IgnEvent.probe ["w", "a.pdf"], 9000), (IgnEvent.fire ["w", "a.pdf"], 9500)])
      ["w", "a.pdf"] 21000).1 = false :=
  ⟨c6_ignore_window.1 _ ["w", "a.pdf"] 1000 10999 _ (by decide) (by decide) (by decide),
   c6_ignore_window.2.1 _ ["w", "a.pdf"] 1000 21000 _ (by decide) (by decide)⟩

/-! ## Queue lemmas and claim C5 -/

/-- The canonical trace of a sequence of settled jobs starting at id k:
each job starts and then finishes with its recorded outcome. -/
def pairedTrace (k : Nat) : List Bool → List QEvent
  | [] => []
  | ok :: rest => QEvent.started k :: QEvent.finished k ok :: pairedTrace (k + 1) rest

theorem pairedTrace_append (a b : List Bool) (k : Nat) :
    pairedTrace k (a ++ b) = pairedTrace k a ++ pairedTrace (k + a.length) b := by
  induction a generalizing k with
  | nil => simp [pairedTrace]
  | cons x xs ih =>
    simp only [List.cons_append, pairedTrace, List.length_cons, List.append_eq]
    rw [ih]
    rw [show k + 1 + xs.length = k + (xs.length + 1) by omega]

theorem started_mem_pairedTrace (j k : Nat) (l : List Bool) :
    QEvent.started j ∈ pairedTrace k l ↔ k ≤ j ∧ j < k + l.length := by
  induction l generalizing k with
  | nil => simp [pairedTrace]
  | cons x xs ih =>
    simp only [pairedTrace, List.mem_cons, ih, List.length_cons]
    constructor
    · rintro (h | h | ⟨h1, h2⟩)
      · injection h with h
        omega
      · exact absurd h (by simp)
      · omega
    · rintro ⟨h1, h2⟩
      by_cases hjk : j = k
      · exact Or.inl (by rw [hjk])
      · exact Or.inr (Or.inr ⟨by omega, by omega⟩)

/-- Inside a canonical trace, every settled job j has its finish event
followed only by starts of strictly later jobs. -/
theorem pairedTrace_split (flags : List Bool) (j k : Nat) (hk : k ≤ j)
    (hj : j < k + flags.length) :
    ∃ ok pre post, pairedTrace k flags = pre ++ QEvent.finished j ok :: post ∧
      ∀ i, j < i → i < k + flags.length → QEvent.started i ∈ post := by
  induction flags generalizing k with
  | nil => simp at hj; omega
  | cons x xs ih =>
    by_cases hjk : j = k
    · subst hjk
      refine ⟨x, [QEvent.started j], pairedTrace (j + 1) xs, by simp [pairedTrace], ?_⟩
      intro i hji hilt
      rw [started_mem_pairedTrace]
      simp at hilt
      omega
    · obtain ⟨ok, pre, post, heq, hpost⟩ := ih (k + 1) (by omega) (by simp at hj ⊢; omega)
      refine ⟨ok, QEvent.started k :: QEvent.finished k x :: pre, post, ?_, ?_⟩
      · simp [pairedTrace, heq]
      · intro i hji hilt
        exact hpost i hji (by simp at hilt ⊢; omega)

/-- The invariant of the per-folder chain: some prefix of jobs has settled
(in order, each before the next started), at most one job is running (the
next id after the settled ones), and the pending queue is exactly the
ascending run of the remaining ids. -/
def QInv (σ : QueueState) : Prop :=
  ∃ flags : List Bool,
    σ.trace = pairedTrace 0 flags ++
      (match σ.running with | some r => [QEvent.started r] | Option.none => []) ∧
    (∀ r, σ.running = some r → r = flags.length) ∧
    σ.pending = List.range' (flags.length + (if σ.running.isSome then 1 else 0))
      (σ.nextId - (flags.length + (if σ.running.isSome then 1 else 0))) ∧
    flags.length + (if σ.running.isSome then 1 else 0) ≤ σ.nextId

theorem qinv_init : QInv initQueue := by
  refine ⟨[], ?_, ?_, ?_, ?_⟩ <;> simp [initQueue, pairedTrace]

theorem qstep_enqueue_ignored (σ : QueueState) (path : String)
    (h : σ.ignoredPaths.contains path = true) :
    qstep σ (QStep.enqueue path) = σ := by
  simp only [qstep]
  rw [if_pos h]

theorem qstep_enqueue_new (σ : QueueState) (path : String)
    (h : ¬ σ.ignoredPaths.contains path = true) :
    qstep σ (QStep.enqueue path) =
      { σ with pending := σ.pending ++ [σ.nextId], nextId := σ.nextId + 1 } := by
  simp only [qstep]
  rw [if_neg h]

theorem qstep_start_run (σ : QueueState) (r : Nat) (h : σ.running = some r) :
    qstep σ QStep.start = σ := by
  simp [qstep, h]

theorem qstep_start_empty (σ : QueueState) (h1 : σ.running = Option.none)
    (h2 : σ.pending = []) : qstep σ QStep.start = σ := by
  simp [qstep, h1, h2]

theorem qstep_start_go (σ : QueueState) (j : Nat) (rest : List Nat)
    (h1 : σ.running = Option.none) (h2 : σ.pending = j :: rest) :
    qstep σ QStep.start =
      { σ with running := some j, pending := rest,
               trace := σ.trace ++ [QEvent.started j] } := by
  simp [qstep, h1, h2]

theorem qstep_finish_idle (σ : QueueState) (ok : Bool) (h : σ.running = Option.none) :
    qstep σ (QStep.finish ok) = σ := by
  simp [qstep, h]

theorem qstep_finish_run (σ : QueueState) (r : Nat) (ok : Bool) (h : σ.running = some r) :
    qstep σ (QStep.finish ok) =
      { σ with running := Option.none,
               trace := σ.trace ++ [QEvent.finished r ok] } := by
  simp [qstep, h]

theorem qinv_step (σ : QueueState) (e : QStep) (h : QInv σ) : QInv (qstep σ e) := by
  obtain ⟨flags, htr, hrun, hpend, hle⟩ := h
  cases e with
  | enqueue path =>
    by_cases hign : σ.ignoredPaths.contains path = true
    · rw [qstep_enqueue_ignored σ path hign]
      exact ⟨flags, htr, hrun, hpend, hle⟩
    · rw [qstep_enqueue_new σ path hign]
      refine ⟨flags, htr, hrun, ?_,
        by show flags.length + (if σ.running.isSome then 1 else 0) ≤ σ.nextId + 1; omega⟩
      show σ.pending ++ [σ.nextId] =
        List.range' (flags.length + (if σ.running.isSome then 1 else 0))
          (σ.nextId + 1 - (flags.length + (if σ.running.isSome then 1 else 0)))
      rw [hpend]
      have h1 : σ.nextId + 1 - (flags.length + (if σ.running.isSome then 1 else 0)) =
          (σ.nextId - (flags.length + (if σ.running.isSome then 1 else 0))) + 1 := by
        omega
      rw [h1, List.range'_concat]
      have h2 : flags.length + (if σ.running.isSome then 1 else 0) +
          1 * (σ.nextId - (flags.length + (if σ.running.isSome then 1 else 0))) =
          σ.nextId := by omega
      rw [h2]
  | start =>
    cases hr : σ.running with
    | some r =>
      rw [qstep_start_run σ r hr]
      exact ⟨flags, htr, hrun, hpend, hle⟩
    | none =>
      cases hp : σ.pending with
      | nil =>
        rw [qstep_start_empty σ hr hp]
        exact ⟨flags, htr, hrun, hpend, hle⟩
      | cons j rest =>
        rw [qstep_start_go σ j rest hr hp]
        rw [hr] at htr hpend hle
        simp only [Option.isSome_none, Bool.false_eq_true, if_false, Nat.add_zero,
          List.append_nil] at htr hpend hle
        have hp' := hp
        rw [hpend] at hp'
        cases hn : σ.nextId - flags.length with
        | zero =>
          rw [hn] at hp'
          exact absurd hp' (by simp [List.range'])
        | succ m =>
          rw [hn, List.range'_succ] at hp'
          injection hp' with hj hrest
          refine ⟨flags, ?_, ?_, ?_, ?_⟩
          · show σ.trace ++ [QEvent.started j] = pairedTrace 0 flags ++ [QEvent.started j]
            rw [htr]
          · intro r' hr'
            injection hr' with hr'
            omega
          · show rest = List.range' (flags.length + 1) (σ.nextId - (flags.length + 1))
            rw [← hrest]
            congr 1
            omega
          · show flags.length + 1 ≤ σ.nextId
            omega
  | finish ok =>
    cases hr : σ.running with
    | none =>
      rw [qstep_finish_idle σ ok hr]
      exact ⟨flags, htr, hrun, hpend, hle⟩
    | some r =>
      have hrl : r = flags.length := hrun r hr
      rw [qstep_finish_run σ r ok hr]
      rw [hr] at htr hpend hle
      simp only [Option.isSome_some, if_true] at hpend hle
      refine ⟨flags ++ [ok], ?_, ?_, ?_, ?_⟩
      · show σ.trace ++ [QEvent.finished r ok] = pairedTrace 0 (flags ++ [ok]) ++ []
        rw [htr, pairedTrace_append]
        subst hrl
        simp [pairedTrace]
      · intro r' hr'
        exact absurd hr' (by simp)
      · show σ.pending = List.range' ((flags ++ [ok]).length + 0)
          (σ.nextId - ((flags ++ [ok]).length + 0))
        simpa using hpend
      · show (flags ++ [ok]).length + 0 ≤ σ.nextId
        simp
        omega
  | setIgnored ps =>
    exact ⟨flags, htr, hrun, hpend, hle⟩

theorem qreachable_inv (σ : QueueState) (h : QReachable σ) : QInv σ := by
  induction h with
  | init => exact qinv_init
  | step σ' e _ ih => exact qinv_step σ' e ih

theorem qreachable_run (es : List QStep) (σ : QueueState) (h : QReachable σ) :
    QReachable (runQueue σ es) := by
  induction es generalizing σ with
  | nil => exact h
  | cons e es ih => exact ih (qstep σ e) (QReachable.step σ e h)

/-- C5: in every reachable state of a folder chain, (a) any job whose start
is on the trace was preceded by the completion (fulfilled or failed) of
every earlier job — jobs run serially in arrival order; (b) after the
running job settles, even with an error, the next pending job starts —
failures do not break the chain; (c) enqueueing a currently-ignored path
leaves the state unchanged: no job is created. -/
theorem c5_queue_serialization (σ : QueueState) (hσ : QReachable σ) :
    (∀ j1 j2, j1 < j2 → QEvent.started j2 ∈ σ.trace →
      ∃ ok t1 t2, σ.trace = t1 ++ QEvent.finished j1 ok :: t2 ∧
        QEvent.started j2 ∈ t2)
    ∧ (∀ r j rest ok, σ.running = some r → σ.pending = j :: rest →
      QEvent.started j ∈ (qstep (qstep σ (QStep.finish ok)) QStep.start).trace)
    ∧ (∀ path, path ∈ σ.ignoredPaths → qstep σ (QStep.enqueue path) = σ) := by
  obtain ⟨flags, htr, hrun, hpend, hle⟩ := qreachable_inv σ hσ
  refine ⟨?_, ?_, ?_⟩
  · intro j1 j2 h12 hs
    have hj2 : j2 < flags.length ∨ σ.running = some j2 := by
      rw [htr] at hs
      rcases List.mem_append.mp hs with h | h
      · left
        have := (started_mem_pairedTrace j2 0 flags).mp h
        omega
      · right
        cases hr : σ.running with
        | none => rw [hr] at h; simp at h
        | some r =>
          rw [hr] at h
          simp at h
          exact congrArg some h.symm
    have hj1 : j1 < flags.length := by
      rcases hj2 with h | h
      · omega
      · have := hrun j2 h; omega
    obtain ⟨ok, pre, post, heq, hpost⟩ :=
      pairedTrace_split flags j1 0 (Nat.zero_le j1) (by omega)
    refine ⟨ok, pre,
      post ++ (match σ.running with | some r => [QEvent.started r] | Option.none => []),
      ?_, ?_⟩
    · rw [htr, heq]
      simp [List.append_assoc]
    · rcases hj2 with h | h
      · exact List.mem_append.mpr (Or.inl (hpost j2 h12 (by omega)))
      · refine List.mem_append.mpr (Or.inr ?_)
        rw [h]
        simp
  · intro r j rest ok hr hp
    simp [qstep, hr, hp]
  · intro path h
    exact qstep_enqueue_ignored σ path (List.elem_eq_true_of_mem h)

/-- C5 witness: enqueue two jobs, run the first to failure; the reachable
state shows job 1 starting only after job 0 finished. -/
theorem c5_queue_serialization_witness :
    QEvent.started 1 ∈ (runQueue initQueue
      [QStep.enqueue "a", QStep.enqueue "b", QStep.start,
       QStep.finish false, QStep.start]).trace ∧
    ∃ ok t1 t2, (runQueue initQueue
      [QStep.enqueue "a", QStep.enqueue "b", QStep.start,
       QStep.finish false, QStep.start]).trace =
        t1 ++ QEvent.finished 0 ok :: t2 ∧ QEvent.started 1 ∈ t2 :=
  ⟨by decide,
   (c5_queue_serialization _
     (qreachable_run _ initQueue QReachable.init)).1 0 1 (by decide) (by decide)⟩

/-! ## Text content provider: claim C7 -/

/-- A text file of 50 lines.  The provider receives the byte size from
fs.stat separately from the bytes it reads, and uses the size only to pick
the strategy; a stat size of 20049 corresponds to 50 lines of 400 bytes,
and the partial assembly depends only on the line count, so short lines
keep the evaluation small without changing the code path. -/
def c7DemoContent : String :=
  intercalateStr "\n" (List.replicate 50 (String.mk (List.replicate 4 'a')))

set_option maxRecDepth 4000 in
/-- C7 counterexample: a file between 10 KiB and 100 KiB whose partial body
contains no omission marker at all (it has only 50 lines), although the
claim promises one; the projection is false only on a partialBody whose
data lacks the marker text. -/
theorem c7_text_body_counterexample :
    10 * 1024 < 20049 ∧ (20049 : Nat) ≤ 100 * 1024 ∧
    (fun b => match b with
      | BodyContent.partialBody d _ _ _ => strContains d "lines omitted"
      | _ => true)
      (textProvideContent DEFAULT_TEXT_THRESHOLDS 20049 c7DemoContent ".txt") =
      false := by
  refine ⟨by decide, by decide, by decide⟩

/-- C7 (amended): with the default thresholds, a text body is full content
at up to 10 KiB, the head-tail partial assembly from 10 KiB to 100 KiB,
and nothing above 100 KiB; the partial assembly carries the first 50 lines
and the last 50 lines as sections, carries the omission marker exactly
when more than 100 lines exist (for marker-free line content), and for CSV
files opens with the verbatim header line as its own section. -/
theorem c7_text_body_policy :
    (∀ (size : Nat) (content ext : String), size ≤ 10 * 1024 →
      textProvideContent DEFAULT_TEXT_THRESHOLDS size content ext =
        BodyContent.full content)
    ∧ (∀ (size : Nat) (content ext : String), 10 * 1024 < size → size ≤ 100 * 1024 →
      ∃ incl omt, textProvideContent DEFAULT_TEXT_THRESHOLDS size content ext =
        BodyContent.partialBody
          (intercalateStr "\n" (textPartialLines (strSplitChar '\n' content) ext))
          size incl omt)
    ∧ (∀ (size : Nat) (content ext : String), 100 * 1024 < size →
      textProvideContent DEFAULT_TEXT_THRESHOLDS size content ext = BodyContent.none)
    ∧ (∀ (lines : List String) (ext : String), ∃ s t, textPartialLines lines ext =
        s ++ ("=== First 50 lines ===" :: lines.take 50) ++ t)
    ∧ (∀ (lines : List String) (ext : String), ∃ s, textPartialLines lines ext =
        s ++ ("=== Last 50 lines ===" :: lines.drop (lines.length - 50)))
    ∧ (∀ (lines : List String) (ext : String), 100 < lines.length →
        ("\n... [" ++ toString (lines.length - 100) ++ " lines omitted] ...\n") ∈
          textPartialLines lines ext)
    ∧ (∀ (lines : List String) (ext : String), lines.length ≤ 100 →
        (∀ l ∈ lines, strContains l "lines omitted" = false) →
        ∀ s ∈ textPartialLines lines ext, strContains s "lines omitted" = false)
    ∧ (∀ lines : List String, 0 < lines.length →
        (textPartialLines lines ".csv").take 3 =
          ["=== CSV Header ===", lines.headD "", ""]) := by
  refine ⟨?_, ?_, ?_, ?_, ?_, ?_, ?_, ?_⟩
  · intro size content ext h
    have h1 : textShouldSendContent DEFAULT_TEXT_THRESHOLDS size = true := by
      simp [textShouldSendContent, DEFAULT_TEXT_THRESHOLDS]; omega
    have h2 : textDetermineContentType DEFAULT_TEXT_THRESHOLDS size = ContentKind.full := by
      simp [textDetermineContentType, DEFAULT_TEXT_THRESHOLDS]; omega
    simp [textProvideContent, h1, h2, textExtractContent]
  · intro size content ext hlo hhi
    have h1 : textShouldSendContent DEFAULT_TEXT_THRESHOLDS size = true := by
      simp [textShouldSendContent, DEFAULT_TEXT_THRESHOLDS]; omega
    have h2 : textDetermineContentType DEFAULT_TEXT_THRESHOLDS size =
        ContentKind.partialKind := by
      simp [textDetermineContentType, DEFAULT_TEXT_THRESHOLDS]; omega
    refine ⟨byteLen (intercalateStr "\n" (textPartialLines (strSplitChar '\n' content) ext)),
      (size : Int) - (byteLen (intercalateStr "\n"
        (textPartialLines (strSplitChar '\n' content) ext)) : Int), ?_⟩
    simp [textProvideContent, h1, h2, textExtractContent]
  · intro size content ext h
    have h1 : textShouldSendContent DEFAULT_TEXT_THRESHOLDS size = false := by
      simp [textShouldSendContent, DEFAULT_TEXT_THRESHOLDS]; omega
    simp [textProvideContent, h1]
  · intro lines ext
    refine ⟨(if ext = ".csv" ∧ lines.length > 0
        then ["=== CSV Header ===", lines.headD "", ""] else []),
      (if lines.length - 100 > 0
        then ["\n... [" ++ toString (lines.length - 100) ++ " lines omitted] ...\n"]
        else []) ++ ("=== Last 50 lines ===" :: lines.drop (lines.length - 50)), ?_⟩
    by_cases hc : ext = ".csv" ∧ lines.length > 0 <;>
      by_cases hm : lines.length - 100 > 0 <;>
      simp [textPartialLines, hc, hm, List.append_assoc]
  · intro lines ext
    refine ⟨(if ext = ".csv" ∧ lines.length > 0
        then ["=== CSV Header ===", lines.headD "", ""] else []) ++
      ("=== First 50 lines ===" :: lines.take 50) ++
      (if lines.length - 100 > 0
        then ["\n... [" ++ toString (lines.length - 100) ++ " lines omitted] ...\n"]
        else []), ?_⟩
    by_cases hc : ext = ".csv" ∧ lines.length > 0 <;>
      by_cases hm : lines.length - 100 > 0 <;>
      simp [textPartialLines, hc, hm, List.append_assoc]
  · intro lines ext h
    have homit : lines.length - 100 > 0 := by omega
    simp [textPartialLines, homit]
  · intro lines ext hlen hfree s hs
    have homit : ¬ (lines.length - 100 > 0) := by omega
    by_cases hc : ext = ".csv" ∧ lines.length > 0 <;>
      simp [textPartialLines, hc, homit] at hs
    · rcases hs with hs | hs | hs | hs | hs | hs | hs
      · rw [hs]; decide
      · rcases lines with _ | ⟨a, t⟩
        · exact absurd hc.2 (by simp)
        · rw [hs]; simpa using hfree a (by simp)
      · rw [hs]; decide
      · rw [hs]; decide
      · exact hfree s (List.take_subset 50 lines hs)
      · rw [hs]; decide
      · exact hfree s (List.drop_subset _ lines hs)
    · rcases hs with hs | hs | hs | hs
      · rw [hs]; decide
      · exact hfree s (List.take_subset 50 lines hs)
      · rw [hs]; decide
      · exact hfree s (List.drop_subset _ lines hs)
  · intro lines hlen
    have hc : (".csv" : String) = ".csv" ∧ lines.length > 0 := ⟨rfl, hlen⟩
    simp [textPartialLines, hc, List.take]

/-- C7 witness: a 2-byte file is sent in full. -/
theorem c7_text_body_policy_witness :
    textProvideContent DEFAULT_TEXT_THRESHOLDS 5 "hi" ".txt" = BodyContent.full "hi" :=
  c7_text_body_policy.1 5 "hi" ".txt" (by decide)

/-! ## sed lemmas and claim C8 -/

/-- Modelled from the spec: a literal global replace, as the claim reads
sed — every literal occurrence of find is replaced by the literal string
replace, with no interpretation of either argument. -/
def specLiteralReplaceAux (ci : Bool) (d f r : List Char) : Nat → Nat → List Char
  | _, 0 => []
  | i, fuel + 1 =>
    if h : i < d.length then
      if matchesAt ci f (d.drop i) then
        if f.length = 0 then
          r ++ [d.get ⟨i, h⟩] ++ specLiteralReplaceAux ci d f r (i + 1) fuel
        else r ++ specLiteralReplaceAux ci d f r (i + f.length) fuel
      else d.get ⟨i, h⟩ :: specLiteralReplaceAux ci d f r (i + 1) fuel
    else
      if matchesAt ci f (d.drop i) then r else []

/-- Modelled from the spec: the whole-string literal global replace. -/
def specSedLiteralReplace (ci : Bool) (data find repl : String) : String :=
  String.mk (specLiteralReplaceAux ci data.data find.data repl.data 0 (data.data.length + 1))

/-- A replacement string without a dollar sign expands to itself. -/
theorem expandRepl_no_dollar (r mat pre post : List Char) (hr : '$' ∉ r) :
    expandRepl r mat pre post = r := by
  induction r with
  | nil => rfl
  | cons c rest ih =>
    have hc : c ≠ '$' := fun h => hr (by rw [h]; exact List.mem_cons_self _ _)
    have hrest : '$' ∉ rest := fun h => hr (List.mem_cons_of_mem _ h)
    cases rest with
    | nil => simp [expandRepl]
    | cons d rest2 =>
      simp only [expandRepl, if_neg hc, List.cons.injEq, true_and]
      exact ih hrest

theorem jsReplaceAux_no_dollar (ci : Bool) (d f r : List Char) (hr : '$' ∉ r) :
    ∀ fuel i, jsReplaceAux ci d f r i fuel = specLiteralReplaceAux ci d f r i fuel := by
  intro fuel
  induction fuel with
  | zero => intro i; rfl
  | succ n ih =>
    intro i
    by_cases h : i < d.length
    · by_cases hm : matchesAt ci f (d.drop i)
      · by_cases hf : f.length = 0
        · simp [jsReplaceAux, specLiteralReplaceAux, h, hm, hf,
            expandRepl_no_dollar _ _ _ _ hr, ih]
        · simp [jsReplaceAux, specLiteralReplaceAux, h, hm, hf,
            expandRepl_no_dollar _ _ _ _ hr, ih]
      · simp [jsReplaceAux, specLiteralReplaceAux, h, hm, ih]
    · by_cases hm : matchesAt ci f (d.drop i)
      · simp [jsReplaceAux, specLiteralReplaceAux, h, hm,
          expandRepl_no_dollar _ _ _ _ hr]
      · simp [jsReplaceAux, specLiteralReplaceAux, h, hm]

/-- With no dollar sign in the replacement, sed's replacement is exactly
the literal global replace of the claim. -/
theorem jsReplace_no_dollar (ci : Bool) (data find repl : String)
    (hr : '$' ∉ repl.data) :
    jsReplace ci data find repl = specSedLiteralReplace ci data find repl := by
  unfold jsReplace specSedLiteralReplace
  rw [jsReplaceAux_no_dollar ci data.data find.data repl.data hr]

/-- Does the replacement contain one of the two-character JS dollar
patterns (dollar-dollar, dollar-ampersand, dollar-backquote,
dollar-quote) anywhere? -/
def hasDollarPattern : List Char → Bool
  | [] => false
  | [_] => false
  | c :: d :: rest =>
    (c = '$' && (d = '$' || d = '&' || d = Char.ofNat 96 || d = Char.ofNat 39)) ||
    hasDollarPattern (d :: rest)

theorem hasDollarPattern_tail {c : Char} {l : List Char}
    (h : hasDollarPattern (c :: l) = false) : hasDollarPattern l = false := by
  cases l with
  | nil => rfl
  | cons d rest =>
    rw [show hasDollarPattern (c :: d :: rest) =
      ((c = '$' && (d = '$' || d = '&' || d = Char.ofNat 96 || d = Char.ofNat 39)) ||
        hasDollarPattern (d :: rest)) from rfl, Bool.or_eq_false_iff] at h
    exact h.2

/-- A replacement without any dollar pattern expands to itself: a dollar
sign not followed by one of the four pattern characters is literal. -/
theorem expandRepl_no_pattern : ∀ (r mat pre post : List Char),
    hasDollarPattern r = false → expandRepl r mat pre post = r
  | [], _, _, _, _ => rfl
  | [c], _, _, _, _ => rfl
  | c :: d :: rest, mat, pre, post, hr => by
    rw [show hasDollarPattern (c :: d :: rest) =
      ((c = '$' && (d = '$' || d = '&' || d = Char.ofNat 96 || d = Char.ofNat 39)) ||
        hasDollarPattern (d :: rest)) from rfl, Bool.or_eq_false_iff] at hr
    obtain ⟨hpair, htail⟩ := hr
    by_cases hc : c = '$'
    · have hd1 : ¬(d = '$') := by
        intro h
        rw [h] at hpair
        simp [hc] at hpair
      have hd2 : ¬(d = '&') := by
        intro h
        rw [h] at hpair
        simp [hc] at hpair
      have hd3 : ¬(d = Char.ofNat 96) := by
        intro h
        rw [h] at hpair
        simp [hc] at hpair
      have hd4 : ¬(d = Char.ofNat 39) := by
        intro h
        rw [h] at hpair
        simp [hc] at hpair
      show expandRepl (c :: d :: rest) mat pre post = c :: d :: rest
      rw [show expandRepl (c :: d :: rest) mat pre post =
        (if c = '$' then
          if d = '$' then '$' :: expandRepl rest mat pre post
          else if d = '&' then mat ++ expandRepl rest mat pre post
          else if d = Char.ofNat 96 then pre ++ expandRepl rest mat pre post
          else if d = Char.ofNat 39 then post ++ expandRepl rest mat pre post
          else c :: d :: expandRepl rest mat pre post
        else c :: expandRepl (d :: rest) mat pre post) from rfl]
      rw [if_pos hc, if_neg hd1, if_neg hd2, if_neg hd3, if_neg hd4]
      rw [expandRepl_no_pattern rest mat pre post (hasDollarPattern_tail htail)]
    · show expandRepl (c :: d :: rest) mat pre post = c :: d :: rest
      rw [show expandRepl (c :: d :: rest) mat pre post =
        (if c = '$' then
          if d = '$' then '$' :: expandRepl rest mat pre post
          else if d = '&' then mat ++ expandRepl rest mat pre post
          else if d = Char.ofNat 96 then pre ++ expandRepl rest mat pre post
          else if d = Char.ofNat 39 then post ++ expandRepl rest mat pre post
          else c :: d :: expandRepl rest mat pre post
        else c :: expandRepl (d :: rest) mat pre post) from rfl]
      rw [if_neg hc]
      rw [expandRepl_no_pattern (d :: rest) mat pre post htail]

/-- A dollar-free replacement in particular contains no dollar pattern. -/
theorem no_dollar_no_pattern : ∀ r : List Char, '$' ∉ r → hasDollarPattern r = false
  | [], _ => rfl
  | [_], _ => rfl
  | c :: d :: rest, hr => by
    have hc : ¬(c = '$') := fun h => hr (by rw [h]; exact List.mem_cons_self _ _)
    have htail : '$' ∉ d :: rest := fun h => hr (List.mem_cons_of_mem _ h)
    rw [show hasDollarPattern (c :: d :: rest) =
      ((c = '$' && (d = '$' || d = '&' || d = Char.ofNat 96 || d = Char.ofNat 39)) ||
        hasDollarPattern (d :: rest)) from rfl]
    rw [no_dollar_no_pattern (d :: rest) htail]
    simp [hc]

theorem jsReplaceAux_no_pattern (ci : Bool) (d f r : List Char)
    (hr : hasDollarPattern r = false) :
    ∀ fuel i, jsReplaceAux ci d f r i fuel = specLiteralReplaceAux ci d f r i fuel := by
  intro fuel
  induction fuel with
  | zero => intro i; rfl
  | succ n ih =>
    intro i
    by_cases h : i < d.length
    · by_cases hm : matchesAt ci f (d.drop i)
      · by_cases hf : f.length = 0
        · simp [jsReplaceAux, specLiteralReplaceAux, h, hm, hf,
            expandRepl_no_pattern _ _ _ _ hr, ih]
        · simp [jsReplaceAux, specLiteralReplaceAux, h, hm, hf,
            expandRepl_no_pattern _ _ _ _ hr, ih]
      · simp [jsReplaceAux, specLiteralReplaceAux, h, hm, ih]
    · by_cases hm : matchesAt ci f (d.drop i)
      · simp [jsReplaceAux, specLiteralReplaceAux, h, hm,
          expandRepl_no_pattern _ _ _ _ hr]
      · simp [jsReplaceAux, specLiteralReplaceAux, h, hm]

/-- With no dollar pattern in the replacement, sed's replacement is
exactly the literal global replace of the claim. -/
theorem jsReplace_no_pattern (ci : Bool) (data find repl : String)
    (hr : hasDollarPattern repl.data = false) :
    jsReplace ci data find repl = specSedLiteralReplace ci data find repl := by
  unfold jsReplace specSedLiteralReplace
  rw [jsReplaceAux_no_pattern ci data.data find.data repl.data hr]

def c8DemoFs : Fs := fun q =>
  if q = ([] : List String) then some FsEntry.dir
  else if q = ["w"] then some FsEntry.dir
  else if q = ["w", "a.txt"] then some (FsEntry.file "a") else Option.none

/-- C8 counterexample: sed with find "a" and replace containing a JS
dollar-ampersand pattern writes "ab", not the literal replacement that the
claim promises. -/
theorem c8_sed_counterexample :
    (fun v => match v with
      | Except.ok (_, fs2, _) => fs2 ["w", "a.txt"]
      | _ => Option.none)
      (invokeSed "a.txt" "a" "$&b" false ⟨"/w", false⟩ c8DemoFs) =
      some (FsEntry.file "ab") ∧
    specSedLiteralReplace false "a" "a" "$&b" = "$&b" ∧
    ("ab" : String) ≠ "$&b" := by
  refine ⟨by decide, by decide, by decide⟩

/-- C8 (amended): on a readable contained text file, sed rewrites the
content to the JS global replacement of the escaped find pattern and
writes the file back only when the content actually changed; the find
string is never interpreted as a regex, but the replacement is subject to
JS dollar-pattern expansion. The result equals the claimed literal global
replace whenever the replacement contains no occurrence of the
two-character dollar patterns (dollar-dollar, dollar-ampersand,
dollar-backquote, dollar-quote); in particular a dollar-free replacement
qualifies, and a lone or trailing dollar or a dollar followed by any
other character is copied literally. -/
theorem c8_sed_semantics :
    (∀ (p find repl : String) (ci : Bool) (ctx : ToolCtx) (fs : Fs)
      (abs : List String) (data : String)
      (res : ToolResult) (fs2 : Fs) (notif : List (List String)),
      invokeSed p find repl ci ctx fs = Except.ok (res, fs2, notif) →
      ctx.dryRun = false →
      isBinaryFileExtension p = false →
      resolveWithinFolder ctx.folderPath p = Except.ok abs →
      fs abs = some (FsEntry.file data) →
      byteLen data ≤ MAX_READ_BYTES →
      entIsDir (fs abs.dropLast) = true →
      ((jsReplace ci data find repl = data → res.success = true ∧ ∀ q, fs2 q = fs q)
        ∧ (jsReplace ci data find repl ≠ data → res.success = true ∧
          fs2 abs = some (FsEntry.file (jsReplace ci data find repl)))))
    ∧ (∀ (data find repl : String) (ci : Bool), hasDollarPattern repl.data = false →
      jsReplace ci data find repl = specSedLiteralReplace ci data find repl)
    ∧ (∀ r : List Char, ('$' : Char) ∉ r → hasDollarPattern r = false) := by
  constructor
  · intro p find repl ci ctx fs abs data res fs2 notif hinv hdry hbin hres hfile hsz hdir
    by_cases htrim : (strTrim p).length = 0
    · simp [invokeSed, assertPathArgument, htrim, bind, Except.bind] at hinv
    · have hsz' : ¬ (byteLen data > MAX_READ_BYTES) := by omega
      have hnone : (fs abs).isNone = false := by simp [hfile]
      by_cases hmod : jsReplace ci data find repl = data
      · simp [invokeSed, assertPathArgument, htrim, assertStringArgument,
          bind, Except.bind, pure, Except.pure, hbin, hdry, hres, hfile, hnone,
          hsz', hmod, successResult] at hinv
        obtain ⟨hr, hf, hn⟩ := hinv
        constructor
        · intro _
          refine ⟨?_, fun q => by rw [hf]⟩
          rw [← hr]
        · intro hc
          exact absurd hmod hc
      · cases hpd : fs abs.dropLast with
        | none => rw [hpd] at hdir; simp [entIsDir] at hdir
        | some ent =>
          cases ent with
          | file c => rw [hpd] at hdir; simp [entIsDir] at hdir
          | dir =>
            simp [invokeSed, assertPathArgument, htrim, assertStringArgument,
              bind, Except.bind, pure, Except.pure, hbin, hdry, hres, hfile, hnone,
              hsz', hmod, Fs.writeFile, entIsDir, hpd, successResult] at hinv
            obtain ⟨hr, hf, hn⟩ := hinv
            refine ⟨fun hc => absurd hc hmod, fun _ => ⟨?_, ?_⟩⟩
            · rw [← hr]
            · rw [← hf]
              simp
  · exact ⟨fun data find repl ci hr => jsReplace_no_pattern ci data find repl hr,
      fun r hr => no_dollar_no_pattern r hr⟩

def c8WitnessFs : Fs := fun q =>
  if q = ([] : List String) then some FsEntry.dir
  else if q = ["w"] then some FsEntry.dir
  else if q = ["w", "b.txt"] then some (FsEntry.file "hello") else Option.none

def c8WitnessRes : ToolResult := successResult "sed" "b.txt"
  [("find", JVal.s "l"), ("replace", JVal.s "L"), ("caseInsensitive", JVal.b false),
   ("replacements", JVal.n (countMatches false "hello" "l")), ("modified", JVal.b true)]

def c8WitnessFs2 : Fs := fun q =>
  if q = ["w", "b.txt"] then some (FsEntry.file (jsReplace false "hello" "l" "L"))
  else c8WitnessFs q

/-- C8 witness: replacing "l" by "L" in "hello" succeeds and writes back
the replaced content. -/
theorem c8_sed_semantics_witness :
    c8WitnessRes.success = true ∧
    c8WitnessFs2 ["w", "b.txt"] = some (FsEntry.file (jsReplace false "hello" "l" "L")) :=
  (c8_sed_semantics.1 "b.txt" "l" "L" false ⟨"/w", false⟩ c8WitnessFs ["w", "b.txt"]
    "hello" c8WitnessRes c8WitnessFs2 [["w", "b.txt"]] rfl rfl (by decide) rfl rfl
    (by decide) rfl).2 (by decide)

/-! ## Rename extension preservation: claim C2 -/

def c2DemoFs : Fs := fun q =>
  if q = ([] : List String) then some FsEntry.dir
  else if q = ["w"] then some FsEntry.dir
  else if q = ["w", "README"] then some (FsEntry.file "readme") else Option.none

/-- C2 counterexample: renaming an extensionless file to a name with an
extension succeeds, so a successful rename does not imply equal
extensions. -/
theorem c2_rename_counterexample :
    (fun v => match v with
      | Except.ok (r, _, _) => r.success
      | _ => false)
      (invokeRenameFile "README" "README.md" ⟨"/w", false⟩ c2DemoFs) = true ∧
    extnameStr "README" ≠ extnameStr "README.md" := by
  refine ⟨by decide, by decide⟩

/-- C2 (amended): a successful rename preserves the extension whenever the
source name has one (a file without an extension may gain one); and when
the source has an extension that the new name does not carry, the tool
returns the extension-mismatch error, with its suggested corrected name,
before touching the filesystem. -/
theorem c2_rename_extension :
    (∀ (src dst : String) (ctx : ToolCtx) (fs : Fs) (res : ToolResult) (fs2 : Fs)
      (notif : List (List String)),
      invokeRenameFile src dst ctx fs = Except.ok (res, fs2, notif) →
      res.success = true → extnameStr src ≠ "" →
      extnameStr dst = extnameStr src)
    ∧ (∀ (src dst : String) (ctx : ToolCtx) (fs : Fs) (res : ToolResult) (fs2 : Fs)
      (notif : List (List String)),
      extnameStr src ≠ "" → extnameStr dst ≠ extnameStr src →
      invokeRenameFile src dst ctx fs = Except.ok (res, fs2, notif) →
      res.success = false ∧ (∀ q, fs2 q = fs q) ∧
      ∃ msg, ("error", JVal.s msg) ∈ res.output ∧
        (msg = extMissingMsg "new name" (extnameStr src) dst ∨
          msg = extMismatchMsg "new name" (extnameStr src) (extnameStr dst) dst)) := by
  constructor
  · intro src dst ctx fs res fs2 notif hinv hsucc hfe
    by_cases htr1 : (strTrim src).length = 0
    · simp [invokeRenameFile, bind, Except.bind, pure, Except.pure,
        assertPathArgument, htr1] at hinv
    · by_cases htr2 : (strTrim dst).length = 0
      · simp [invokeRenameFile, bind, Except.bind, pure, Except.pure,
          assertPathArgument, htr1, htr2] at hinv
      · by_cases hc1 : extnameStr src ≠ "" ∧ extnameStr dst = ""
        · simp [invokeRenameFile, bind, Except.bind, pure, Except.pure,
            assertPathArgument, htr1, htr2, hc1.1, hc1.2, errorResult] at hinv
          rw [← hinv.1] at hsucc
          cases hsucc
        · by_cases hc2 : extnameStr src ≠ "" ∧ extnameStr dst ≠ "" ∧
            extnameStr src ≠ extnameStr dst
          · simp [invokeRenameFile, bind, Except.bind, pure, Except.pure,
              assertPathArgument, htr1, htr2, hc2.1, hc2.2.1, hc2.2.2,
              errorResult] at hinv
            rw [← hinv.1] at hsucc
            cases hsucc
          · push_neg at hc1 hc2
            have h1 : extnameStr dst ≠ "" := hc1 hfe
            exact (hc2 hfe h1).symm
  · intro src dst ctx fs res fs2 notif hfe hne hinv
    by_cases htr1 : (strTrim src).length = 0
    · simp [invokeRenameFile, bind, Except.bind, pure, Except.pure,
        assertPathArgument, htr1] at hinv
    · by_cases htr2 : (strTrim dst).length = 0
      · simp [invokeRenameFile, bind, Except.bind, pure, Except.pure,
          assertPathArgument, htr1, htr2] at hinv
      · by_cases hz : extnameStr dst = ""
        · simp [invokeRenameFile, bind, Except.bind, pure, Except.pure,
            assertPathArgument, htr1, htr2, hfe, hz, errorResult] at hinv
          obtain ⟨hr, hf, hn⟩ := hinv
          refine ⟨by rw [← hr], fun q => by rw [← hf], ?_⟩
          refine ⟨extMissingMsg "new name" (extnameStr src) dst, ?_, Or.inl rfl⟩
          rw [← hr]
          simp
        · have hns : extnameStr src ≠ extnameStr dst := fun h => hne h.symm
          simp [invokeRenameFile, bind, Except.bind, pure, Except.pure,
            assertPathArgument, htr1, htr2, hfe, hz, hns, errorResult] at hinv
          obtain ⟨hr, hf, hn⟩ := hinv
          refine ⟨by rw [← hr], fun q => by rw [← hf], ?_⟩
          refine ⟨extMismatchMsg "new name" (extnameStr src) (extnameStr dst) dst,
            ?_, Or.inr rfl⟩
          rw [← hr]
          simp

/-- C2 witness: renaming a pdf to a name with a txt extension fails with
the mismatch error and leaves the filesystem unchanged. -/
theorem c2_rename_extension_witness :
    (fun v => match v with
      | Except.ok (r, _, _) => r.success
      | _ => true)
      (invokeRenameFile "a.pdf" "b.txt" ⟨"/w", false⟩ c2DemoFs) = false :=
  match hinv : invokeRenameFile "a.pdf" "b.txt" ⟨"/w", false⟩ c2DemoFs with
  | Except.ok (res, fs2, notif) => by
    have h := (c2_rename_extension.2 "a.pdf" "b.txt" ⟨"/w", false⟩ c2DemoFs res fs2
      notif (by decide) (by decide) hinv).1
    simpa using h
  | Except.error e => by
    have : (invokeRenameFile "a.pdf" "b.txt" ⟨"/w", false⟩ c2DemoFs).isOk = true := by
      decide
    rw [hinv] at this
    cases this

/-! ## Filesystem mutation lemmas -/

theorem mkdirp_changes (fs : Fs) (p : List String) (fs1 : Fs)
    (h : Fs.mkdirp fs p = Except.ok fs1) :
    ∀ q, fs1 q ≠ fs q → (q.isPrefixOf p = true ∧ fs q = Option.none ∧
      fs1 q = some FsEntry.dir) := by
  unfold Fs.mkdirp at h
  split at h
  · injection h with h
    intro q hq
    rw [← h] at hq ⊢
    by_cases hc : (q.isPrefixOf p && (fs q).isNone) = true
    · simp only [hc, if_true, if_pos]
      simp only [Bool.and_eq_true, Option.isNone_iff_eq_none] at hc
      refine ⟨hc.1, hc.2, ?_⟩
      simp [hc]
    · simp only [hc] at hq
      simp at hq
  · cases h

theorem mkdirp_keeps (fs : Fs) (p : List String) (fs1 : Fs)
    (h : Fs.mkdirp fs p = Except.ok fs1) :
    ∀ q, fs q ≠ Option.none → fs1 q = fs q := by
  intro q hq
  by_cases hc : fs1 q = fs q
  · exact hc
  · exact absurd (mkdirp_changes fs p fs1 h q hc).2.1 hq

theorem writeFile_changes (fs : Fs) (p : List String) (c : String) (fs2 : Fs)
    (h : Fs.writeFile fs p c = Except.ok fs2) :
    fs2 p = some (FsEntry.file c) ∧ ∀ q, q ≠ p → fs2 q = fs q := by
  unfold Fs.writeFile at h
  split at h
  · cases h
  · split at h
    · injection h with h
      rw [← h]
      refine ⟨by simp, fun q hq => by simp [hq]⟩
    · cases h

theorem rename_changes (fs : Fs) (src dst : List String) (fs2 : Fs)
    (h : Fs.rename fs src dst = Except.ok fs2) :
    ∀ q, fs2 q ≠ fs q → (src.isPrefixOf q = true ∨ dst.isPrefixOf q = true) := by
  unfold Fs.rename at h
  split at h
  · cases h
  · split at h
    · injection h with h
      intro q hq
      rw [← h] at hq
      simp at hq
    · split at h
      · cases h
      · split at h
        · cases h
        · split at h
          · cases h
          · injection h with h
            intro q hq
            rw [← h] at hq
            by_cases h1 : dst.isPrefixOf q = true
            · exact Or.inr h1
            · by_cases h2 : src.isPrefixOf q = true
              · exact Or.inl h2
              · simp [h1, h2] at hq

/-- A successful rename between two distinct targets is never between a
path and its own ancestor. -/
theorem rename_not_nested (fs : Fs) (src dst : List String) (fs2 : Fs)
    (h : Fs.rename fs src dst = Except.ok fs2) (hne : src ≠ dst) :
    src.isPrefixOf dst = false ∧ dst.isPrefixOf src = false := by
  unfold Fs.rename at h
  repeat' split at h
  all_goals first
    | exact absurd (by assumption) hne
    | cases h
  all_goals
    exact ⟨Bool.eq_false_iff.mpr (by assumption), Bool.eq_false_iff.mpr (by assumption)⟩

/-! ## Prefix-order helper lemmas -/

theorem isPrefixOfIff {a b : List String} : a.isPrefixOf b = true ↔ a <+: b :=
  List.isPrefixOf_iff_prefix

theorem isPrefixOfTrans {a b c : List String} (h1 : a.isPrefixOf b = true)
    (h2 : b.isPrefixOf c = true) : a.isPrefixOf c = true :=
  isPrefixOfIff.mpr ((isPrefixOfIff.mp h1).trans (isPrefixOfIff.mp h2))

theorem segsComparable {a b c : List String} (h1 : a <+: c) (h2 : b <+: c) :
    a <+: b ∨ b <+: a :=
  List.prefix_or_prefix_of_prefix h1 h2

theorem notPrefixOfDropLast {a : List String} (h : a ≠ []) :
    a.isPrefixOf a.dropLast = false := by
  by_contra hc
  have hp : a <+: a.dropLast := isPrefixOfIff.mp (by simpa using hc)
  have hl := hp.length_le
  rw [List.length_dropLast] at hl
  have hpos : 0 < a.length := List.length_pos.mpr h
  omega

theorem resolveWithinFolder_ok_isPrefixOf (fp t : String) (abs : List String)
    (h : resolveWithinFolder fp t = .ok abs) :
    (resolveFolder fp).isPrefixOf abs = true :=
  isPrefixOfIff.mpr ( resolveWithinFolder_ok_prefix fp t abs h)

/-- Composing two folder-contained filesystem transitions. -/
theorem changes_trans (F : List String) (fs fs1 fs2 : Fs)
    (h1 : ∀ q, fs1 q ≠ fs q → F.isPrefixOf q = true)
    (h2 : ∀ q, fs2 q ≠ fs1 q → F.isPrefixOf q = true) :
    ∀ q, fs2 q ≠ fs q → F.isPrefixOf q = true := by
  intro q hq
  by_cases h : fs1 q = fs q
  · exact h2 q fun e => hq (by rw [e, h])
  · exact h1 q h

/-- When every path at or above the folder root exists, a recursive mkdir
below a contained target only creates directories inside the folder. -/
theorem mkdirp_contained (F A tgt : List String) (fs fs1 : Fs)
    (hmk : Fs.mkdirp fs tgt = Except.ok fs1)
    (hanc : ∀ q, q.isPrefixOf F = true → fs q ≠ Option.none)
    (htA : tgt <+: A) (hFA : F <+: A) :
    ∀ q, fs1 q ≠ fs q → F.isPrefixOf q = true := by
  intro q hq
  obtain ⟨hqt, hnone, _⟩ := mkdirp_changes fs tgt fs1 hmk q hq
  rcases segsComparable ((isPrefixOfIff.mp hqt).trans htA) hFA with h | h
  · exact absurd hnone (hanc q (isPrefixOfIff.mpr h))
  · exact isPrefixOfIff.mpr h

theorem writeFile_contained (F : List String) (fs fs2 : Fs) (p : List String) (c : String)
    (hw : Fs.writeFile fs p c = Except.ok fs2) (hFp : F.isPrefixOf p = true) :
    ∀ q, fs2 q ≠ fs q → F.isPrefixOf q = true := by
  intro q hq
  by_cases h : q = p
  · exact h ▸ hFp
  · exact absurd ((writeFile_changes fs p c fs2 hw).2 q h) hq

theorem rename_contained (F : List String) (fs fs2 : Fs) (src dst : List String)
    (hr : Fs.rename fs src dst = Except.ok fs2)
    (hs : F.isPrefixOf src = true) (hd : F.isPrefixOf dst = true) :
    ∀ q, fs2 q ≠ fs q → F.isPrefixOf q = true := by
  intro q hq
  rcases rename_changes fs src dst fs2 hr q hq with h | h
  · exact isPrefixOfTrans hs h
  · exact isPrefixOfTrans hd h

/-! ## The four read-only tools never touch the filesystem -/

theorem readFile_readonly (p : String) (ctx : ToolCtx) (fs : Fs) (r : ToolResult)
    (fs2 : Fs) (notif : List (List String))
    (hinv : invokeReadFile p ctx fs = Except.ok (r, fs2, notif)) :
    fs2 = fs ∧ notif = [] ∧ (escapes ctx.folderPath p = true → r.success = false) := by
  by_cases htr : (strTrim p).length = 0
  · simp [invokeReadFile, bind, Except.bind, pure, Except.pure, assertPathArgument,
      htr] at hinv
  · by_cases hbin : isBinaryFileExtension p = true
    · simp only [invokeReadFile, bind, Except.bind, pure, Except.pure,
        assertPathArgument, if_neg htr, hbin, if_true, Except.ok.injEq,
        Prod.mk.injEq] at hinv
      obtain ⟨hr, hf, hn⟩ := hinv
      subst hr hf hn
      exact ⟨rfl, rfl, fun _ => rfl⟩
    · by_cases hesc : escapes ctx.folderPath p = true
      · simp only [invokeReadFile, bind, Except.bind, pure, Except.pure,
          assertPathArgument, if_neg htr, hbin, Bool.false_eq_true, if_false,
          resolveWithinFolder_eq, hesc, if_true, Except.ok.injEq,
          Prod.mk.injEq] at hinv
        obtain ⟨hr, hf, hn⟩ := hinv
        subst hr hf hn
        exact ⟨rfl, rfl, fun _ => rfl⟩
      · simp only [invokeReadFile, bind, Except.bind, pure, Except.pure,
          assertPathArgument, if_neg htr, hbin, Bool.false_eq_true, if_false,
          resolveWithinFolder_eq, hesc, Except.ok.injEq, Prod.mk.injEq] at hinv
        repeat' split at hinv
        all_goals
          obtain ⟨rfl, rfl, rfl⟩ := hinv
        all_goals exact ⟨rfl, rfl, fun he => absurd he hesc⟩

theorem grep_readonly (p pat : String) (ci : Bool) (ctx : ToolCtx) (fs : Fs)
    (r : ToolResult) (fs2 : Fs) (notif : List (List String))
    (hinv : invokeGrep p pat ci ctx fs = Except.ok (r, fs2, notif)) :
    fs2 = fs ∧ notif = [] ∧ (escapes ctx.folderPath p = true → r.success = false) := by
  by_cases htr : (strTrim p).length = 0
  · simp [invokeGrep, bind, Except.bind, pure, Except.pure, assertPathArgument,
      htr] at hinv
  · by_cases hbin : isBinaryFileExtension p = true
    · simp only [invokeGrep, bind, Except.bind, pure, Except.pure,
        assertPathArgument, assertStringArgument, if_neg htr, hbin, if_true,
        Except.ok.injEq, Prod.mk.injEq] at hinv
      obtain ⟨hr, hf, hn⟩ := hinv
      subst hr hf hn
      exact ⟨rfl, rfl, fun _ => rfl⟩
    · by_cases hesc : escapes ctx.folderPath p = true
      · simp only [invokeGrep, bind, Except.bind, pure, Except.pure,
          assertPathArgument, assertStringArgument, if_neg htr, hbin,
          Bool.false_eq_true, if_false, resolveWithinFolder_eq, hesc, if_true,
          Except.ok.injEq, Prod.mk.injEq] at hinv
        obtain ⟨hr, hf, hn⟩ := hinv
        subst hr hf hn
        exact ⟨rfl, rfl, fun _ => rfl⟩
      · simp only [invokeGrep, bind, Except.bind, pure, Except.pure,
          assertPathArgument, assertStringArgument, if_neg htr, hbin,
          Bool.false_eq_true, if_false, resolveWithinFolder_eq, hesc,
          Except.ok.injEq, Prod.mk.injEq] at hinv
        repeat' split at hinv
        all_goals
          obtain ⟨rfl, rfl, rfl⟩ := hinv
        all_goals exact ⟨rfl, rfl, fun he => absurd he hesc⟩

theorem head_readonly (p : String) (ln : Option Int) (ctx : ToolCtx) (fs : Fs)
    (r : ToolResult) (fs2 : Fs) (notif : List (List String))
    (hinv : invokeHead p ln ctx fs = Except.ok (r, fs2, notif)) :
    fs2 = fs ∧ notif = [] ∧ (escapes ctx.folderPath p = true → r.success = false) := by
  by_cases htr : (strTrim p).length = 0
  · simp [invokeHead, bind, Except.bind, pure, Except.pure, assertPathArgument,
      htr] at hinv
  · by_cases hbin : isBinaryFileExtension p = true
    · simp only [invokeHead, bind, Except.bind, pure, Except.pure,
        assertPathArgument, if_neg htr, hbin, if_true, Except.ok.injEq,
        Prod.mk.injEq] at hinv
      obtain ⟨hr, hf, hn⟩ := hinv
      subst hr hf hn
      exact ⟨rfl, rfl, fun _ => rfl⟩
    · simp only [invokeHead, bind, Except.bind, pure, Except.pure,
        assertPathArgument, if_neg htr, hbin, Bool.false_eq_true, if_false,
        resolveWithinFolder_eq, expectPositiveInteger, Except.ok.injEq,
        Prod.mk.injEq] at hinv
      by_cases hesc : escapes ctx.folderPath p = true
      · simp only [hesc, if_true] at hinv
        repeat' split at hinv
        all_goals
          obtain ⟨rfl, rfl, rfl⟩ := hinv
        all_goals exact ⟨rfl, rfl, fun _ => rfl⟩
      · simp only [hesc, Bool.false_eq_true, if_false] at hinv
        repeat' split at hinv
        all_goals
          obtain ⟨rfl, rfl, rfl⟩ := hinv
        all_goals exact ⟨rfl, rfl, fun he => absurd he hesc⟩

theorem tail_readonly (p : String) (ln : Option Int) (ctx : ToolCtx) (fs : Fs)
    (r : ToolResult) (fs2 : Fs) (notif : List (List String))
    (hinv : invokeTail p ln ctx fs = Except.ok (r, fs2, notif)) :
    fs2 = fs ∧ notif = [] ∧ (escapes ctx.folderPath p = true → r.success = false) := by
  by_cases htr : (strTrim p).length = 0
  · simp [invokeTail, bind, Except.bind, pure, Except.pure, assertPathArgument,
      htr] at hinv
  · by_cases hbin : isBinaryFileExtension p = true
    · simp only [invokeTail, bind, Except.bind, pure, Except.pure,
        assertPathArgument, if_neg htr, hbin, if_true, Except.ok.injEq,
        Prod.mk.injEq] at hinv
      obtain ⟨hr, hf, hn⟩ := hinv
      subst hr hf hn
      exact ⟨rfl, rfl, fun _ => rfl⟩
    · simp only [invokeTail, bind, Except.bind, pure, Except.pure,
        assertPathArgument, if_neg htr, hbin, Bool.false_eq_true, if_false,
        resolveWithinFolder_eq, expectPositiveInteger, Except.ok.injEq,
        Prod.mk.injEq] at hinv
      by_cases hesc : escapes ctx.folderPath p = true
      · simp only [hesc, if_true] at hinv
        repeat' split at hinv
        all_goals
          obtain ⟨rfl, rfl, rfl⟩ := hinv
        all_goals exact ⟨rfl, rfl, fun _ => rfl⟩
      · simp only [hesc, Bool.false_eq_true, if_false] at hinv
        repeat' split at hinv
        all_goals
          obtain ⟨rfl, rfl, rfl⟩ := hinv
        all_goals exact ⟨rfl, rfl, fun he => absurd he hesc⟩

/-! ## Dry-run semantics: claim C3 -/

/-- The five file-writing tools of the registry. -/
def writingTool : ToolCall → Bool
  | .write_file _ _ => true
  | .rename_file _ _ => true
  | .move_file _ _ => true
  | .sed _ _ _ _ => true
  | .create_folder _ => true
  | _ => false

/-- C3 counterexample: rename_file with dry_run=true and an
extension-changing new name returns the extension-mismatch error, not
skipped:true / reason:dry_run, although it is a file-writing tool. -/
theorem c3_dry_run_counterexample :
    ((invokeTool (ToolCall.rename_file "a.pdf" "b.txt") ⟨"/w", true⟩ c2DemoFs).toOption.map
      (fun v => (v.1.success, (v.1.output.map Prod.fst).contains "skipped")))
      = some (false, false) ∧ (ToolCtx.mk "/w" true).dryRun = true := by
  constructor
  · decide
  · rfl

/-- C3 (amended): under dry_run=true every file-writing tool leaves the
filesystem untouched and notifies no path; and the skipped:true /
reason:dry_run result is returned exactly when the checks the tool makes
before its dry-run gate pass: always for move_file and create_folder, for
non-binary extensions for write_file and sed, and for an
extension-preserving new name for rename_file. -/
theorem c3_dry_run_semantics :
    (∀ (tc : ToolCall) (ctx : ToolCtx) (fs : Fs) (r : ToolResult) (fs2 : Fs)
        (notif : List (List String)), writingTool tc = true → ctx.dryRun = true →
      invokeTool tc ctx fs = Except.ok (r, fs2, notif) → fs2 = fs ∧ notif = []) ∧
    (∀ (p c : String) (ctx : ToolCtx) (fs : Fs), ctx.dryRun = true →
      (strTrim p).length ≠ 0 → isBinaryFileExtension p = false →
      invokeTool (ToolCall.write_file p c) ctx fs =
        Except.ok (successResult "write_file" p dryRunFields, fs, [])) ∧
    (∀ (src dst : String) (ctx : ToolCtx) (fs : Fs), ctx.dryRun = true →
      (strTrim src).length ≠ 0 → (strTrim dst).length ≠ 0 →
      ¬(extnameStr src ≠ "" ∧ extnameStr dst = "") →
      ¬(extnameStr src ≠ "" ∧ extnameStr dst ≠ "" ∧ extnameStr src ≠ extnameStr dst) →
      invokeTool (ToolCall.rename_file src dst) ctx fs =
        Except.ok (successResult "rename_file" (src ++ " -> " ++ dst) dryRunFields,
          fs, [])) ∧
    (∀ (src dst : String) (ctx : ToolCtx) (fs : Fs), ctx.dryRun = true →
      (strTrim src).length ≠ 0 → (strTrim dst).length ≠ 0 →
      invokeTool (ToolCall.move_file src dst) ctx fs =
        Except.ok (successResult "move_file" (src ++ " -> " ++ dst) dryRunFields,
          fs, [])) ∧
    (∀ (p f rp : String) (ci : Bool) (ctx : ToolCtx) (fs : Fs), ctx.dryRun = true →
      (strTrim p).length ≠ 0 → isBinaryFileExtension p = false →
      invokeTool (ToolCall.sed p f rp ci) ctx fs =
        Except.ok (successResult "sed" p
          (dryRunFields ++ [("find", JVal.s f), ("replace", JVal.s rp)]), fs, [])) ∧
    (∀ (p : String) (ctx : ToolCtx) (fs : Fs), ctx.dryRun = true →
      (strTrim p).length ≠ 0 →
      invokeTool (ToolCall.create_folder p) ctx fs =
        Except.ok (successResult "create_folder" p dryRunFields, fs, [])) := by
  refine ⟨?_, ?_, ?_, ?_, ?_, ?_⟩
  · intro tc ctx fs r fs2 notif hw hdry hinv
    cases tc with
    | write_file p c =>
      by_cases htr : (strTrim p).length = 0
      · simp [invokeTool, invokeWriteFile, bind, Except.bind, pure, Except.pure,
          assertPathArgument, htr] at hinv
      · by_cases hbin : isBinaryFileExtension p = true
        · simp only [invokeTool, invokeWriteFile, bind, Except.bind, pure, Except.pure,
            assertPathArgument, assertStringArgument, if_neg htr, hbin, if_true,
            Except.ok.injEq, Prod.mk.injEq] at hinv
          obtain ⟨hr, hf, hn⟩ := hinv
          exact ⟨hf.symm, hn.symm⟩
        · simp only [invokeTool, invokeWriteFile, bind, Except.bind, pure, Except.pure,
            assertPathArgument, assertStringArgument, if_neg htr, hbin,
            Bool.false_eq_true, if_false, hdry, if_true, Except.ok.injEq,
            Prod.mk.injEq] at hinv
          obtain ⟨hr, hf, hn⟩ := hinv
          exact ⟨hf.symm, hn.symm⟩
    | rename_file src dst =>
      by_cases htr1 : (strTrim src).length = 0
      · simp [invokeTool, invokeRenameFile, bind, Except.bind, pure, Except.pure,
          assertPathArgument, htr1] at hinv
      · by_cases htr2 : (strTrim dst).length = 0
        · simp [invokeTool, invokeRenameFile, bind, Except.bind, pure, Except.pure,
            assertPathArgument, htr1, htr2] at hinv
        · by_cases hc1 : extnameStr src ≠ "" ∧ extnameStr dst = ""
          · simp [invokeTool, invokeRenameFile, bind, Except.bind, pure, Except.pure,
              assertPathArgument, htr1, htr2, hc1.1, hc1.2] at hinv
            obtain ⟨hr, hf, hn⟩ := hinv
            exact ⟨hf.symm, hn⟩
          · by_cases hc2 : extnameStr src ≠ "" ∧ extnameStr dst ≠ "" ∧
                extnameStr src ≠ extnameStr dst
            · simp [invokeTool, invokeRenameFile, bind, Except.bind, pure, Except.pure,
                assertPathArgument, htr1, htr2, hc2.1, hc2.2.1, hc2.2.2] at hinv
              obtain ⟨hr, hf, hn⟩ := hinv
              exact ⟨hf.symm, hn⟩
            · simp [invokeTool, invokeRenameFile, bind, Except.bind, pure, Except.pure,
                assertPathArgument, htr1, htr2, hc1, hc2, hdry] at hinv
              obtain ⟨hr, hf, hn⟩ := hinv
              exact ⟨hf.symm, hn⟩
    | move_file src dst =>
      by_cases htr1 : (strTrim src).length = 0
      · simp [invokeTool, invokeMoveFile, bind, Except.bind, pure, Except.pure,
          assertPathArgument, htr1] at hinv
      · by_cases htr2 : (strTrim dst).length = 0
        · simp [invokeTool, invokeMoveFile, bind, Except.bind, pure, Except.pure,
            assertPathArgument, htr1, htr2] at hinv
        · simp [invokeTool, invokeMoveFile, bind, Except.bind, pure, Except.pure,
            assertPathArgument, htr1, htr2, hdry] at hinv
          obtain ⟨hr, hf, hn⟩ := hinv
          exact ⟨hf.symm, hn⟩
    | sed p f rp ci =>
      by_cases htr : (strTrim p).length = 0
      · simp [invokeTool, invokeSed, bind, Except.bind, pure, Except.pure,
          assertPathArgument, htr] at hinv
      · by_cases hbin : isBinaryFileExtension p = true
        · simp only [invokeTool, invokeSed, bind, Except.bind, pure, Except.pure,
            assertPathArgument, assertStringArgument, if_neg htr, hbin, if_true,
            Except.ok.injEq, Prod.mk.injEq] at hinv
          obtain ⟨hr, hf, hn⟩ := hinv
          exact ⟨hf.symm, hn.symm⟩
        · simp only [invokeTool, invokeSed, bind, Except.bind, pure, Except.pure,
            assertPathArgument, assertStringArgument, if_neg htr, hbin,
            Bool.false_eq_true, if_false, hdry, if_true, Except.ok.injEq,
            Prod.mk.injEq] at hinv
          obtain ⟨hr, hf, hn⟩ := hinv
          exact ⟨hf.symm, hn.symm⟩
    | create_folder p =>
      by_cases htr : (strTrim p).length = 0
      · simp [invokeTool, invokeCreateFolder, bind, Except.bind, pure, Except.pure,
          assertPathArgument, htr] at hinv
      · simp [invokeTool, invokeCreateFolder, bind, Except.bind, pure, Except.pure,
          assertPathArgument, htr, hdry] at hinv
        obtain ⟨hr, hf, hn⟩ := hinv
        exact ⟨hf.symm, hn⟩
    | read_file p => cases hw
    | grep p pat ci => cases hw
    | head p l => cases hw
    | tail p l => cases hw
  · intro p c ctx fs hdry htr hbin
    simp [invokeTool, invokeWriteFile, bind, Except.bind, pure, Except.pure,
      assertPathArgument, assertStringArgument, htr, hbin, hdry]
  · intro src dst ctx fs hdry htr1 htr2 hc1 hc2
    simp [invokeTool, invokeRenameFile, bind, Except.bind, pure, Except.pure,
      assertPathArgument, htr1, htr2, hc1, hc2, hdry]
  · intro src dst ctx fs hdry htr1 htr2
    simp [invokeTool, invokeMoveFile, bind, Except.bind, pure, Except.pure,
      assertPathArgument, htr1, htr2, hdry]
  · intro p f rp ci ctx fs hdry htr hbin
    simp [invokeTool, invokeSed, bind, Except.bind, pure, Except.pure,
      assertPathArgument, assertStringArgument, htr, hbin, hdry]
  · intro p ctx fs hdry htr
    simp [invokeTool, invokeCreateFolder, bind, Except.bind, pure, Except.pure,
      assertPathArgument, htr, hdry]

/-- C3 witness: under dry_run=true a write_file call on a demo filesystem
returns skipped:true / reason:dry_run and leaves the filesystem unchanged. -/
theorem c3_dry_run_semantics_witness :
    invokeTool (ToolCall.write_file "note.txt" "hi") ⟨"/w", true⟩ c2DemoFs =
      Except.ok (successResult "write_file" "note.txt" dryRunFields, c2DemoFs, []) :=
  c3_dry_run_semantics.2.1 "note.txt" "hi" ⟨"/w", true⟩ c2DemoFs rfl
    (by decide) (by decide)

/-! ## Dry-run validation asymmetry: claim C10 -/

/-- C10: move_file returns skipped:true / reason:dry_run before any
validation — for every filesystem and any argument paths, including paths
that escape the folder, missing sources and extension-changing
destinations — whereas rename_file under dry_run=true still enforces the
extension-preservation rule and returns the mismatch error. -/
theorem c10_dry_run_validation_asymmetry :
    (∀ (src dst : String) (ctx : ToolCtx) (fs : Fs), ctx.dryRun = true →
      (strTrim src).length ≠ 0 → (strTrim dst).length ≠ 0 →
      invokeMoveFile src dst ctx fs =
        Except.ok (successResult "move_file" (src ++ " -> " ++ dst) dryRunFields,
          fs, [])) ∧
    (∀ (src dst : String) (ctx : ToolCtx) (fs : Fs), ctx.dryRun = true →
      (strTrim src).length ≠ 0 → (strTrim dst).length ≠ 0 →
      extnameStr src ≠ "" → extnameStr dst ≠ "" →
      extnameStr src ≠ extnameStr dst →
      invokeRenameFile src dst ctx fs =
        Except.ok (errorResult "rename_file" (src ++ " -> " ++ dst)
          (extMismatchMsg "new name" (extnameStr src) (extnameStr dst) dst),
          fs, [])) := by
  constructor
  · intro src dst ctx fs hdry htr1 htr2
    simp [invokeMoveFile, bind, Except.bind, pure, Except.pure,
      assertPathArgument, htr1, htr2, hdry]
  · intro src dst ctx fs hdry htr1 htr2 he1 he2 hne
    simp [invokeRenameFile, bind, Except.bind, pure, Except.pure,
      assertPathArgument, htr1, htr2, he1, he2, hne]

/-- C10 witness: with dry_run=true, moving a pdf out of the folder to a
txt name on an empty filesystem reports skipped, while the matching
rename reports the extension-mismatch error. -/
theorem c10_dry_run_validation_asymmetry_witness :
    invokeMoveFile "../esc.pdf" "gone.txt" ⟨"/w", true⟩ (fun _ => Option.none) =
      Except.ok (successResult "move_file" "../esc.pdf -> gone.txt" dryRunFields,
        (fun _ => Option.none), []) ∧
    invokeRenameFile "a.pdf" "b.txt" ⟨"/w", true⟩ (fun _ => Option.none) =
      Except.ok (errorResult "rename_file" "a.pdf -> b.txt"
        (extMismatchMsg "new name" (extnameStr "a.pdf") (extnameStr "b.txt") "b.txt"),
        (fun _ => Option.none), []) :=
  ⟨c10_dry_run_validation_asymmetry.1 "../esc.pdf" "gone.txt" ⟨"/w", true⟩
      (fun _ => Option.none) rfl (by decide) (by decide),
    c10_dry_run_validation_asymmetry.2 "a.pdf" "b.txt" ⟨"/w", true⟩
      (fun _ => Option.none) rfl (by decide) (by decide) (by decide) (by decide)
      (by decide)⟩

/-! ## write_file never overwrites: claim C4 -/

/-- The filesystem a successful recursive mkdir produces (the lambda of
Fs.mkdirp, named so proofs can speak about it). -/
def mkdirpFs (fs : Fs) (tgt : List String) : Fs := fun q =>
  if q.isPrefixOf tgt && (fs q).isNone then some FsEntry.dir else fs q

theorem mkdirp_ok (fs : Fs) (tgt : List String)
    (h : (List.range (tgt.length + 1)).all (fun n => !entIsFile (fs (tgt.take n))) = true) :
    Fs.mkdirp fs tgt = Except.ok (mkdirpFs fs tgt) := by
  unfold Fs.mkdirp mkdirpFs
  rw [if_pos h]

/-- The filesystem a successful write produces (the lambda of
Fs.writeFile, named so proofs can speak about it). -/
def writeFs (fs : Fs) (p : List String) (c : String) : Fs := fun q =>
  if q = p then some (.file c) else fs q

theorem writeFile_ok (fs : Fs) (p : List String) (c : String)
    (h1 : entIsDir (fs p) = false) (h2 : entIsDir (fs p.dropLast) = true) :
    Fs.writeFile fs p c = Except.ok (writeFs fs p c) := by
  unfold Fs.writeFile writeFs
  rw [if_neg (by simp [h1]), if_pos h2]

/-- C4 counterexample: a write_file whose target has a binary extension
fails and writes nothing even though the target does not exist, so
"when the target does not exist ... the file is written" does not hold. -/
theorem c4_write_file_counterexample :
    ((invokeWriteFile "x.pdf" "data" ⟨"/w", false⟩ c2DemoFs).toOption.map
      (fun v => (v.1.success, (v.2.1 ["w", "x.pdf"]).isSome))) = some (false, false) ∧
    c2DemoFs ["w", "x.pdf"] = Option.none ∧
    (ToolCtx.mk "/w" false).dryRun = false := by
  refine ⟨by decide, by decide, rfl⟩

/-- C4 (amended): with dry_run=false, when the resolved target exists the
call fails, the target keeps its contents and nothing existing changes;
when the target is absent, its extension is not a binary one and no
ancestor of the target is a file, the missing parent directories are
created and the file is written. -/
theorem c4_write_file_no_overwrite :
    (∀ (p c : String) (ctx : ToolCtx) (fs : Fs) (r : ToolResult) (fs2 : Fs)
        (notif : List (List String)) (A : List String),
      ctx.dryRun = false →
      resolveWithinFolder ctx.folderPath p = Except.ok A →
      fs A ≠ Option.none →
      invokeWriteFile p c ctx fs = Except.ok (r, fs2, notif) →
      r.success = false ∧ fs2 A = fs A ∧
        (∀ q, fs q ≠ Option.none → fs2 q = fs q) ∧ notif = []) ∧
    (∀ (p c : String) (ctx : ToolCtx) (fs : Fs) (A : List String),
      ctx.dryRun = false → (strTrim p).length ≠ 0 →
      isBinaryFileExtension p = false →
      resolveWithinFolder ctx.folderPath p = Except.ok A → A ≠ [] →
      fs A = Option.none →
      (List.range (A.dropLast.length + 1)).all
        (fun n => !entIsFile (fs (A.dropLast.take n))) = true →
      ∃ fs2, invokeWriteFile p c ctx fs =
          Except.ok (successResult "write_file" p [("bytes", JVal.n (byteLen c))],
            fs2, [A]) ∧
        fs2 A = some (FsEntry.file c) ∧
        (∀ q, q ≠ A → fs q ≠ Option.none → fs2 q = fs q) ∧
        (∀ q, q.isPrefixOf A.dropLast = true → fs q = Option.none →
          fs2 q = some FsEntry.dir)) := by
  constructor
  · intro p c ctx fs r fs2 notif A hdry hres hex hinv
    by_cases htr : (strTrim p).length = 0
    · simp [invokeWriteFile, bind, Except.bind, pure, Except.pure,
        assertPathArgument, htr] at hinv
    · by_cases hbin : isBinaryFileExtension p = true
      · simp only [invokeWriteFile, bind, Except.bind, pure, Except.pure,
          assertPathArgument, assertStringArgument, if_neg htr, hbin, if_true,
          Except.ok.injEq, Prod.mk.injEq] at hinv
        obtain ⟨hr, hf, hn⟩ := hinv
        subst hr hf hn
        exact ⟨rfl, rfl, fun _ _ => rfl, rfl⟩
      · simp only [invokeWriteFile, bind, Except.bind, pure, Except.pure,
          assertPathArgument, assertStringArgument, if_neg htr, hbin,
          Bool.false_eq_true, if_false, hdry, hres] at hinv
        cases hmk : Fs.mkdirp fs A.dropLast with
        | error e =>
          rw [hmk] at hinv
          simp only [Except.ok.injEq, Prod.mk.injEq] at hinv
          obtain ⟨hr, hf, hn⟩ := hinv
          subst hr hf hn
          exact ⟨rfl, rfl, fun _ _ => rfl, rfl⟩
        | ok fs1 =>
          rw [hmk] at hinv
          have hkeep := mkdirp_keeps fs A.dropLast fs1 hmk
          have hf1A : fs1 A = fs A := hkeep A hex
          have hsome : (fs1 A).isSome = true := by
            rw [hf1A]
            exact Option.ne_none_iff_isSome.mp hex
          simp only [hsome, if_true, Except.ok.injEq, Prod.mk.injEq] at hinv
          obtain ⟨hr, hf, hn⟩ := hinv
          subst hr hf hn
          exact ⟨rfl, hf1A, hkeep, rfl⟩
  · intro p c ctx fs A hdry htr hbin hres hA0 hfsA hpre
    have hmk := mkdirp_ok fs A.dropLast hpre
    have hf1A : mkdirpFs fs A.dropLast A = Option.none := by
      unfold mkdirpFs
      rw [notPrefixOfDropLast hA0]
      simp [hfsA]
    have hrefl : A.dropLast.isPrefixOf A.dropLast = true :=
      isPrefixOfIff.mpr ( List.prefix_refl _)
    have hdir : entIsDir (mkdirpFs fs A.dropLast A.dropLast) = true := by
      unfold mkdirpFs
      rcases ho : fs A.dropLast with _ | e
      · simp [hrefl, ho, entIsDir]
      · have hmem : A.dropLast.length ∈ List.range (A.dropLast.length + 1) := by
          simp
        have hnf := (List.all_eq_true.mp hpre) A.dropLast.length hmem
        rw [List.take_length, ho] at hnf
        cases e
        · simp [entIsFile] at hnf
        · simp [ho, entIsDir]
    have hw := writeFile_ok (mkdirpFs fs A.dropLast) A c
      (by rw [hf1A]; rfl) hdir
    refine ⟨writeFs (mkdirpFs fs A.dropLast) A c, ?_, ?_, ?_, ?_⟩
    · have hnsome : (mkdirpFs fs A.dropLast A).isSome = false := by
        rw [hf1A]; rfl
      simp only [invokeWriteFile, bind, Except.bind, pure, Except.pure,
        assertPathArgument, assertStringArgument, if_neg htr, hbin,
        Bool.false_eq_true, if_false, hdry, hres, hmk, hnsome, hw]
    · simp [writeFs]
    · intro q hqA hqn
      rcases hf : fs q with _ | v
      · exact absurd hf hqn
      · simp [writeFs, hqA, mkdirpFs, hf]
    · intro q hq hqn
      have hqA : q ≠ A := by
        intro he
        rw [he, notPrefixOfDropLast hA0] at hq
        cases hq
      simp [writeFs, hqA, mkdirpFs, hq, hqn]

/-- C4 witness: writing to an existing non-binary target fails and the
target keeps its contents. -/
theorem c4_write_file_no_overwrite_witness :
    (fun v => match v with
      | Except.ok (r, fs2, _) =>
          r.success = false ∧ fs2 ["w", "README"] = c2DemoFs ["w", "README"]
      | Except.error _ => False)
    (invokeWriteFile "README" "new" ⟨"/w", false⟩ c2DemoFs) :=
  match hinv : invokeWriteFile "README" "new" ⟨"/w", false⟩ c2DemoFs with
  | Except.ok (r, fs2, notif) => by
    have h := c4_write_file_no_overwrite.1 "README" "new" ⟨"/w", false⟩ c2DemoFs
      r fs2 notif ["w", "README"] rfl rfl (by decide) hinv
    exact ⟨h.1, h.2.1⟩
  | Except.error e => by
    have hok : (invokeWriteFile "README" "new" ⟨"/w", false⟩ c2DemoFs).isOk = true := by
      decide
    rw [hinv] at hok
    cases hok

/-! ## Path containment per tool: helpers for claim C1 -/

theorem c1_write (p c : String) (ctx : ToolCtx) (fs : Fs) (r : ToolResult)
    (fs2 : Fs) (notif : List (List String)) (hdry : ctx.dryRun = false)
    (hanc : ∀ q, q.isPrefixOf (resolveFolder ctx.folderPath) = true →
      fs q ≠ Option.none)
    (hinv : invokeWriteFile p c ctx fs = Except.ok (r, fs2, notif)) :
    (escapes ctx.folderPath p = true → r.success = false ∧ fs2 = fs ∧ notif = []) ∧
    (∀ q, fs2 q ≠ fs q → (resolveFolder ctx.folderPath).isPrefixOf q = true) ∧
    (∀ q, q ∈ notif → (resolveFolder ctx.folderPath).isPrefixOf q = true) := by
  by_cases htr : (strTrim p).length = 0
  · simp [invokeWriteFile, bind, Except.bind, pure, Except.pure,
      assertPathArgument, htr] at hinv
  · by_cases hbin : isBinaryFileExtension p = true
    · simp only [invokeWriteFile, bind, Except.bind, pure, Except.pure,
        assertPathArgument, assertStringArgument, if_neg htr, hbin, if_true,
        Except.ok.injEq, Prod.mk.injEq] at hinv
      obtain ⟨hr, hf, hn⟩ := hinv
      subst hr hf hn
      exact ⟨fun _ => ⟨rfl, rfl, rfl⟩, fun q hq => absurd rfl hq,
        fun q hq => absurd hq (List.not_mem_nil q)⟩
    · by_cases hesc : escapes ctx.folderPath p = true
      · simp only [invokeWriteFile, bind, Except.bind, pure, Except.pure,
          assertPathArgument, assertStringArgument, if_neg htr, hbin,
          Bool.false_eq_true, if_false, hdry, resolveWithinFolder_eq, hesc,
          if_true, Except.ok.injEq, Prod.mk.injEq] at hinv
        obtain ⟨hr, hf, hn⟩ := hinv
        subst hr hf hn
        exact ⟨fun _ => ⟨rfl, rfl, rfl⟩, fun q hq => absurd rfl hq,
          fun q hq => absurd hq (List.not_mem_nil q)⟩
      · have hres : resolveWithinFolder ctx.folderPath p =
            Except.ok (resolvePath (resolveFolder ctx.folderPath) p) := by
          rw [resolveWithinFolder_eq, if_neg hesc]
        have hFA : (resolveFolder ctx.folderPath).isPrefixOf
            (resolvePath (resolveFolder ctx.folderPath) p) = true :=
          resolveWithinFolder_ok_isPrefixOf _ _ _ hres
        simp only [invokeWriteFile, bind, Except.bind, pure, Except.pure,
          assertPathArgument, assertStringArgument, if_neg htr, hbin,
          Bool.false_eq_true, if_false, hdry, hres] at hinv
        cases hmk : Fs.mkdirp fs
            (resolvePath (resolveFolder ctx.folderPath) p).dropLast with
        | error e =>
          rw [hmk] at hinv
          simp only [Except.ok.injEq, Prod.mk.injEq] at hinv
          obtain ⟨hr, hf, hn⟩ := hinv
          subst hr hf hn
          exact ⟨fun he => absurd he hesc, fun q hq => absurd rfl hq,
            fun q hq => absurd hq (List.not_mem_nil q)⟩
        | ok fs1 =>
          rw [hmk] at hinv
          have hcont1 : ∀ q, fs1 q ≠ fs q →
              (resolveFolder ctx.folderPath).isPrefixOf q = true :=
            mkdirp_contained (resolveFolder ctx.folderPath)
              (resolvePath (resolveFolder ctx.folderPath) p) _ fs fs1 hmk hanc
              ( List.dropLast_prefix _) (isPrefixOfIff.mp hFA)
          by_cases hex : (fs1 (resolvePath (resolveFolder ctx.folderPath) p)).isSome = true
          · simp only [hex, if_true, Except.ok.injEq, Prod.mk.injEq] at hinv
            obtain ⟨hr, hf, hn⟩ := hinv
            subst hr hf hn
            exact ⟨fun he => absurd he hesc, hcont1,
              fun q hq => absurd hq (List.not_mem_nil q)⟩
          · simp only [hex, Bool.false_eq_true, if_false] at hinv
            cases hwf : Fs.writeFile fs1
                (resolvePath (resolveFolder ctx.folderPath) p) c with
            | error e =>
              rw [hwf] at hinv
              simp only [Except.ok.injEq, Prod.mk.injEq] at hinv
              obtain ⟨hr, hf, hn⟩ := hinv
              subst hr hf hn
              exact ⟨fun he => absurd he hesc, hcont1,
                fun q hq => absurd hq (List.not_mem_nil q)⟩
            | ok fsw =>
              rw [hwf] at hinv
              simp only [Except.ok.injEq, Prod.mk.injEq] at hinv
              obtain ⟨hr, hf, hn⟩ := hinv
              subst hr hf hn
              refine ⟨fun he => absurd he hesc, ?_, ?_⟩
              · exact changes_trans _ fs fs1 fsw hcont1
                  (writeFile_contained _ fs1 fsw _ c hwf hFA)
              · intro q hq
                have hqA := List.mem_singleton.mp hq
                subst hqA
                exact hFA

theorem c1_rename (src dst : String) (ctx : ToolCtx) (fs : Fs) (r : ToolResult)
    (fs2 : Fs) (notif : List (List String)) (hdry : ctx.dryRun = false)
    (hanc : ∀ q, q.isPrefixOf (resolveFolder ctx.folderPath) = true →
      fs q ≠ Option.none)
    (hinv : invokeRenameFile src dst ctx fs = Except.ok (r, fs2, notif)) :
    (escapes ctx.folderPath src = true ∨ escapes ctx.folderPath dst = true →
      r.success = false ∧ fs2 = fs ∧ notif = []) ∧
    (∀ q, fs2 q ≠ fs q → (resolveFolder ctx.folderPath).isPrefixOf q = true) ∧
    (∀ q, q ∈ notif → (resolveFolder ctx.folderPath).isPrefixOf q = true) := by
  by_cases htr1 : (strTrim src).length = 0
  · simp [invokeRenameFile, bind, Except.bind, pure, Except.pure,
      assertPathArgument, htr1] at hinv
  · by_cases htr2 : (strTrim dst).length = 0
    · simp [invokeRenameFile, bind, Except.bind, pure, Except.pure,
        assertPathArgument, htr1, htr2] at hinv
    · by_cases hc1 : extnameStr src ≠ "" ∧ extnameStr dst = ""
      · simp [invokeRenameFile, bind, Except.bind, pure, Except.pure,
          assertPathArgument, htr1, htr2, hc1.1, hc1.2] at hinv
        obtain ⟨hr, hf, hn⟩ := hinv
        subst hr hf hn
        exact ⟨fun _ => ⟨rfl, rfl, rfl⟩, fun q hq => absurd rfl hq,
          fun q hq => absurd hq (List.not_mem_nil q)⟩
      · by_cases hc2 : extnameStr src ≠ "" ∧ extnameStr dst ≠ "" ∧
            extnameStr src ≠ extnameStr dst
        · simp [invokeRenameFile, bind, Except.bind, pure, Except.pure,
            assertPathArgument, htr1, htr2, hc2.1, hc2.2.1, hc2.2.2] at hinv
          obtain ⟨hr, hf, hn⟩ := hinv
          subst hr hf hn
          exact ⟨fun _ => ⟨rfl, rfl, rfl⟩, fun q hq => absurd rfl hq,
            fun q hq => absurd hq (List.not_mem_nil q)⟩
        · by_cases hescS : escapes ctx.folderPath src = true
          · simp [invokeRenameFile, bind, Except.bind, pure, Except.pure,
              assertPathArgument, htr1, htr2, hc1, hc2, hdry,
              resolveWithinFolder_eq, hescS] at hinv
            obtain ⟨hr, hf, hn⟩ := hinv
            subst hr hf hn
            exact ⟨fun _ => ⟨rfl, rfl, rfl⟩, fun q hq => absurd rfl hq,
              fun q hq => absurd hq (List.not_mem_nil q)⟩
          · have hresS : resolveWithinFolder ctx.folderPath src =
                Except.ok (resolvePath (resolveFolder ctx.folderPath) src) := by
              rw [resolveWithinFolder_eq, if_neg hescS]
            have hFS : (resolveFolder ctx.folderPath).isPrefixOf
                (resolvePath (resolveFolder ctx.folderPath) src) = true :=
              resolveWithinFolder_ok_isPrefixOf _ _ _ hresS
            by_cases hescD : escapes ctx.folderPath dst = true
            · simp [invokeRenameFile, bind, Except.bind, pure, Except.pure,
                assertPathArgument, htr1, htr2, hc1, hc2, hdry, hresS,
                resolveWithinFolder_eq, hescD] at hinv
              obtain ⟨hr, hf, hn⟩ := hinv
              subst hr hf hn
              exact ⟨fun _ => ⟨rfl, rfl, rfl⟩, fun q hq => absurd rfl hq,
                fun q hq => absurd hq (List.not_mem_nil q)⟩
            · have hresD : resolveWithinFolder ctx.folderPath dst =
                  Except.ok (resolvePath (resolveFolder ctx.folderPath) dst) := by
                rw [resolveWithinFolder_eq, if_neg hescD]
              have hFD : (resolveFolder ctx.folderPath).isPrefixOf
                  (resolvePath (resolveFolder ctx.folderPath) dst) = true :=
                resolveWithinFolder_ok_isPrefixOf _ _ _ hresD
              have hescOr : escapes ctx.folderPath src = true ∨
                  escapes ctx.folderPath dst = true → False := fun h =>
                h.elim (fun he => absurd he hescS) (fun he => absurd he hescD)
              simp only [invokeRenameFile, bind, Except.bind, pure, Except.pure,
                assertPathArgument, if_neg htr1, if_neg htr2, hdry,
                Bool.false_eq_true, if_false, hresS, hresD] at hinv
              rw [if_neg hc1, if_neg hc2] at hinv
              by_cases hN : (fs (resolvePath (resolveFolder ctx.folderPath) src)).isNone = true
              · simp only [hN, if_true, Except.ok.injEq, Prod.mk.injEq] at hinv
                obtain ⟨hr, hf, hn⟩ := hinv
                subst hr hf hn
                exact ⟨fun h => absurd h hescOr, fun q hq => absurd rfl hq,
                  fun q hq => absurd hq (List.not_mem_nil q)⟩
              · simp only [hN, Bool.false_eq_true, if_false] at hinv
                by_cases hT : (fs (resolvePath (resolveFolder ctx.folderPath) dst)).isSome = true
                · simp only [hT, if_true, Except.ok.injEq, Prod.mk.injEq] at hinv
                  obtain ⟨hr, hf, hn⟩ := hinv
                  subst hr hf hn
                  exact ⟨fun h => absurd h hescOr, fun q hq => absurd rfl hq,
                    fun q hq => absurd hq (List.not_mem_nil q)⟩
                · simp only [hT, Bool.false_eq_true, if_false] at hinv
                  cases hmk : Fs.mkdirp fs
                      (resolvePath (resolveFolder ctx.folderPath) dst).dropLast with
                  | error e =>
                    rw [hmk] at hinv
                    simp only [Except.ok.injEq, Prod.mk.injEq] at hinv
                    obtain ⟨hr, hf, hn⟩ := hinv
                    subst hr hf hn
                    exact ⟨fun h => absurd h hescOr, fun q hq => absurd rfl hq,
                      fun q hq => absurd hq (List.not_mem_nil q)⟩
                  | ok fs1 =>
                    rw [hmk] at hinv
                    simp only [] at hinv
                    have hcont1 : ∀ q, fs1 q ≠ fs q →
                        (resolveFolder ctx.folderPath).isPrefixOf q = true :=
                      mkdirp_contained (resolveFolder ctx.folderPath)
                        (resolvePath (resolveFolder ctx.folderPath) dst) _ fs fs1
                        hmk hanc ( List.dropLast_prefix _) (isPrefixOfIff.mp hFD)
                    cases hrn : Fs.rename fs1
                        (resolvePath (resolveFolder ctx.folderPath) src)
                        (resolvePath (resolveFolder ctx.folderPath) dst) with
                    | error e =>
                      rw [hrn] at hinv
                      simp only [Except.ok.injEq, Prod.mk.injEq] at hinv
                      obtain ⟨hr, hf, hn⟩ := hinv
                      subst hr hf hn
                      exact ⟨fun h => absurd h hescOr, hcont1,
                        fun q hq => absurd hq (List.not_mem_nil q)⟩
                    | ok fsr =>
                      rw [hrn] at hinv
                      simp only [Except.ok.injEq, Prod.mk.injEq] at hinv
                      obtain ⟨hr, hf, hn⟩ := hinv
                      subst hr hf hn
                      refine ⟨fun h => absurd h hescOr, ?_, ?_⟩
                      · exact changes_trans _ fs fs1 fsr hcont1
                          (rename_contained _ fs1 fsr _ _ hrn hFS hFD)
                      · intro q hq
                        simp only [List.mem_cons, List.mem_singleton,
                          List.not_mem_nil, or_false] at hq
                        rcases hq with rfl | rfl
                        · exact hFD
                        · exact hFS

theorem c1_move (src dst : String) (ctx : ToolCtx) (fs : Fs) (r : ToolResult)
    (fs2 : Fs) (notif : List (List String)) (hdry : ctx.dryRun = false)
    (hanc : ∀ q, q.isPrefixOf (resolveFolder ctx.folderPath) = true →
      fs q ≠ Option.none)
    (hinv : invokeMoveFile src dst ctx fs = Except.ok (r, fs2, notif)) :
    (escapes ctx.folderPath src = true ∨ escapes ctx.folderPath dst = true →
      r.success = false ∧ fs2 = fs ∧ notif = []) ∧
    (∀ q, fs2 q ≠ fs q → (resolveFolder ctx.folderPath).isPrefixOf q = true) ∧
    (∀ q, q ∈ notif → (resolveFolder ctx.folderPath).isPrefixOf q = true) := by
  by_cases htr1 : (strTrim src).length = 0
  · simp [invokeMoveFile, bind, Except.bind, pure, Except.pure,
      assertPathArgument, htr1] at hinv
  · by_cases htr2 : (strTrim dst).length = 0
    · simp [invokeMoveFile, bind, Except.bind, pure, Except.pure,
        assertPathArgument, htr1, htr2] at hinv
    · by_cases hescS : escapes ctx.folderPath src = true
      · simp [invokeMoveFile, bind, Except.bind, pure, Except.pure,
          assertPathArgument, htr1, htr2, hdry, resolveWithinFolder_eq,
          hescS] at hinv
        obtain ⟨hr, hf, hn⟩ := hinv
        subst hr hf hn
        exact ⟨fun _ => ⟨rfl, rfl, rfl⟩, fun q hq => absurd rfl hq,
          fun q hq => absurd hq (List.not_mem_nil q)⟩
      · have hresS : resolveWithinFolder ctx.folderPath src =
            Except.ok (resolvePath (resolveFolder ctx.folderPath) src) := by
          rw [resolveWithinFolder_eq, if_neg hescS]
        have hFS : (resolveFolder ctx.folderPath).isPrefixOf
            (resolvePath (resolveFolder ctx.folderPath) src) = true :=
          resolveWithinFolder_ok_isPrefixOf _ _ _ hresS
        by_cases hescD : escapes ctx.folderPath dst = true
        · simp [invokeMoveFile, bind, Except.bind, pure, Except.pure,
            assertPathArgument, htr1, htr2, hdry, hresS,
            resolveWithinFolder_eq, hescD] at hinv
          obtain ⟨hr, hf, hn⟩ := hinv
          subst hr hf hn
          exact ⟨fun _ => ⟨rfl, rfl, rfl⟩, fun q hq => absurd rfl hq,
            fun q hq => absurd hq (List.not_mem_nil q)⟩
        · have hresD : resolveWithinFolder ctx.folderPath dst =
              Except.ok (resolvePath (resolveFolder ctx.folderPath) dst) := by
            rw [resolveWithinFolder_eq, if_neg hescD]
          have hFD : (resolveFolder ctx.folderPath).isPrefixOf
              (resolvePath (resolveFolder ctx.folderPath) dst) = true :=
            resolveWithinFolder_ok_isPrefixOf _ _ _ hresD
          have hescOr : escapes ctx.folderPath src = true ∨
              escapes ctx.folderPath dst = true → False := fun h =>
            h.elim (fun he => absurd he hescS) (fun he => absurd he hescD)
          simp only [invokeMoveFile, bind, Except.bind, pure, Except.pure,
            assertPathArgument, if_neg htr1, if_neg htr2, hdry,
            Bool.false_eq_true, if_false, hresS, hresD] at hinv
          by_cases hN : (fs (resolvePath (resolveFolder ctx.folderPath) src)).isNone = true
          · simp only [hN, if_true, Except.ok.injEq, Prod.mk.injEq] at hinv
            obtain ⟨hr, hf, hn⟩ := hinv
            subst hr hf hn
            exact ⟨fun h => absurd h hescOr, fun q hq => absurd rfl hq,
              fun q hq => absurd hq (List.not_mem_nil q)⟩
          · simp only [hN, Bool.false_eq_true, if_false] at hinv
            by_cases hm1 : entIsFile (fs (resolvePath (resolveFolder ctx.folderPath) src))
                  = true ∧ extnameStr src ≠ "" ∧ extnameStr dst = ""
            · rw [if_pos hm1] at hinv
              simp only [Except.ok.injEq, Prod.mk.injEq] at hinv
              obtain ⟨hr, hf, hn⟩ := hinv
              subst hr hf hn
              exact ⟨fun h => absurd h hescOr, fun q hq => absurd rfl hq,
                fun q hq => absurd hq (List.not_mem_nil q)⟩
            · rw [if_neg hm1] at hinv
              by_cases hm2 : entIsFile (fs (resolvePath (resolveFolder ctx.folderPath) src))
                    = true ∧ extnameStr src ≠ "" ∧ extnameStr dst ≠ "" ∧
                    extnameStr src ≠ extnameStr dst
              · rw [if_pos hm2] at hinv
                simp only [Except.ok.injEq, Prod.mk.injEq] at hinv
                obtain ⟨hr, hf, hn⟩ := hinv
                subst hr hf hn
                exact ⟨fun h => absurd h hescOr, fun q hq => absurd rfl hq,
                  fun q hq => absurd hq (List.not_mem_nil q)⟩
              · rw [if_neg hm2] at hinv
                by_cases hT : (fs (resolvePath (resolveFolder ctx.folderPath) dst)).isSome = true
                · simp only [hT, if_true, Except.ok.injEq, Prod.mk.injEq] at hinv
                  obtain ⟨hr, hf, hn⟩ := hinv
                  subst hr hf hn
                  exact ⟨fun h => absurd h hescOr, fun q hq => absurd rfl hq,
                    fun q hq => absurd hq (List.not_mem_nil q)⟩
                · simp only [hT, Bool.false_eq_true, if_false] at hinv
                  cases hmk : Fs.mkdirp fs
                      (resolvePath (resolveFolder ctx.folderPath) dst).dropLast with
                  | error e =>
                    rw [hmk] at hinv
                    simp only [Except.ok.injEq, Prod.mk.injEq] at hinv
                    obtain ⟨hr, hf, hn⟩ := hinv
                    subst hr hf hn
                    exact ⟨fun h => absurd h hescOr, fun q hq => absurd rfl hq,
                      fun q hq => absurd hq (List.not_mem_nil q)⟩
                  | ok fs1 =>
                    rw [hmk] at hinv
                    simp only [] at hinv
                    have hcont1 : ∀ q, fs1 q ≠ fs q →
                        (resolveFolder ctx.folderPath).isPrefixOf q = true :=
                      mkdirp_contained (resolveFolder ctx.folderPath)
                        (resolvePath (resolveFolder ctx.folderPath) dst) _ fs fs1
                        hmk hanc ( List.dropLast_prefix _) (isPrefixOfIff.mp hFD)
                    cases hrn : Fs.rename fs1
                        (resolvePath (resolveFolder ctx.folderPath) src)
                        (resolvePath (resolveFolder ctx.folderPath) dst) with
                    | error e =>
                      rw [hrn] at hinv
                      simp only [Except.ok.injEq, Prod.mk.injEq] at hinv
                      obtain ⟨hr, hf, hn⟩ := hinv
                      subst hr hf hn
                      exact ⟨fun h => absurd h hescOr, hcont1,
                        fun q hq => absurd hq (List.not_mem_nil q)⟩
                    | ok fsr =>
                      rw [hrn] at hinv
                      simp only [Except.ok.injEq, Prod.mk.injEq] at hinv
                      obtain ⟨hr, hf, hn⟩ := hinv
                      subst hr hf hn
                      refine ⟨fun h => absurd h hescOr, ?_, ?_⟩
                      · exact changes_trans _ fs fs1 fsr hcont1
                          (rename_contained _ fs1 fsr _ _ hrn hFS hFD)
                      · intro q hq
                        simp only [List.mem_cons, List.mem_singleton,
                          List.not_mem_nil, or_false] at hq
                        rcases hq with rfl | rfl
                        · exact hFD
                        · exact hFS

theorem c1_sed (p f rp : String) (ci : Bool) (ctx : ToolCtx) (fs : Fs)
    (r : ToolResult) (fs2 : Fs) (notif : List (List String))
    (hdry : ctx.dryRun = false)
    (hinv : invokeSed p f rp ci ctx fs = Except.ok (r, fs2, notif)) :
    (escapes ctx.folderPath p = true → r.success = false ∧ fs2 = fs ∧ notif = []) ∧
    (∀ q, fs2 q ≠ fs q → (resolveFolder ctx.folderPath).isPrefixOf q = true) ∧
    (∀ q, q ∈ notif → (resolveFolder ctx.folderPath).isPrefixOf q = true) := by
  by_cases htr : (strTrim p).length = 0
  · simp [invokeSed, bind, Except.bind, pure, Except.pure,
      assertPathArgument, htr] at hinv
  · by_cases hbin : isBinaryFileExtension p = true
    · simp only [invokeSed, bind, Except.bind, pure, Except.pure,
        assertPathArgument, assertStringArgument, if_neg htr, hbin, if_true,
        Except.ok.injEq, Prod.mk.injEq] at hinv
      obtain ⟨hr, hf, hn⟩ := hinv
      subst hr hf hn
      exact ⟨fun _ => ⟨rfl, rfl, rfl⟩, fun q hq => absurd rfl hq,
        fun q hq => absurd hq (List.not_mem_nil q)⟩
    · by_cases hesc : escapes ctx.folderPath p = true
      · simp only [invokeSed, bind, Except.bind, pure, Except.pure,
          assertPathArgument, assertStringArgument, if_neg htr, hbin,
          Bool.false_eq_true, if_false, hdry, resolveWithinFolder_eq, hesc,
          if_true, Except.ok.injEq, Prod.mk.injEq] at hinv
        obtain ⟨hr, hf, hn⟩ := hinv
        subst hr hf hn
        exact ⟨fun _ => ⟨rfl, rfl, rfl⟩, fun q hq => absurd rfl hq,
          fun q hq => absurd hq (List.not_mem_nil q)⟩
      · have hres : resolveWithinFolder ctx.folderPath p =
            Except.ok (resolvePath (resolveFolder ctx.folderPath) p) := by
          rw [resolveWithinFolder_eq, if_neg hesc]
        have hFA : (resolveFolder ctx.folderPath).isPrefixOf
            (resolvePath (resolveFolder ctx.folderPath) p) = true :=
          resolveWithinFolder_ok_isPrefixOf _ _ _ hres
        simp only [invokeSed, bind, Except.bind, pure, Except.pure,
          assertPathArgument, assertStringArgument, if_neg htr, hbin,
          Bool.false_eq_true, if_false, hdry, hres] at hinv
        by_cases hN : (fs (resolvePath (resolveFolder ctx.folderPath) p)).isNone = true
        · simp only [hN, if_true, Except.ok.injEq, Prod.mk.injEq] at hinv
          obtain ⟨hr, hf, hn⟩ := hinv
          subst hr hf hn
          exact ⟨fun he => absurd he hesc, fun q hq => absurd rfl hq,
            fun q hq => absurd hq (List.not_mem_nil q)⟩
        · simp only [hN, Bool.false_eq_true, if_false] at hinv
          cases hfa : fs (resolvePath (resolveFolder ctx.folderPath) p) with
          | none => rw [hfa] at hN; simp at hN
          | some ent =>
            rw [hfa] at hinv
            cases ent with
            | dir =>
              simp only [Except.ok.injEq, Prod.mk.injEq] at hinv
              obtain ⟨hr, hf, hn⟩ := hinv
              subst hr hf hn
              exact ⟨fun he => absurd he hesc, fun q hq => absurd rfl hq,
                fun q hq => absurd hq (List.not_mem_nil q)⟩
            | file data =>
              by_cases hbig : byteLen data > MAX_READ_BYTES
              · simp only [hbig, if_true, Except.ok.injEq, Prod.mk.injEq] at hinv
                obtain ⟨hr, hf, hn⟩ := hinv
                subst hr hf hn
                exact ⟨fun he => absurd he hesc, fun q hq => absurd rfl hq,
                  fun q hq => absurd hq (List.not_mem_nil q)⟩
              · simp only [hbig, if_false] at hinv
                by_cases hmod : jsReplace ci data f rp ≠ data
                · rw [if_pos hmod] at hinv
                  cases hwf : Fs.writeFile fs
                      (resolvePath (resolveFolder ctx.folderPath) p)
                      (jsReplace ci data f rp) with
                  | error e =>
                    rw [hwf] at hinv
                    simp only [Except.ok.injEq, Prod.mk.injEq] at hinv
                    obtain ⟨hr, hf, hn⟩ := hinv
                    subst hr hf hn
                    exact ⟨fun he => absurd he hesc, fun q hq => absurd rfl hq,
                      fun q hq => absurd hq (List.not_mem_nil q)⟩
                  | ok fsw =>
                    rw [hwf] at hinv
                    simp only [Except.ok.injEq, Prod.mk.injEq] at hinv
                    obtain ⟨hr, hf, hn⟩ := hinv
                    subst hr hf hn
                    refine ⟨fun he => absurd he hesc, ?_, ?_⟩
                    · exact writeFile_contained _ fs fsw _ _ hwf hFA
                    · intro q hq
                      have hqA := List.mem_singleton.mp hq
                      subst hqA
                      exact hFA
                · rw [if_neg hmod] at hinv
                  simp only [Except.ok.injEq, Prod.mk.injEq] at hinv
                  obtain ⟨hr, hf, hn⟩ := hinv
                  subst hr hf hn
                  exact ⟨fun he => absurd he hesc, fun q hq => absurd rfl hq,
                    fun q hq => absurd hq (List.not_mem_nil q)⟩

theorem c1_create (p : String) (ctx : ToolCtx) (fs : Fs) (r : ToolResult)
    (fs2 : Fs) (notif : List (List String)) (hdry : ctx.dryRun = false)
    (hanc : ∀ q, q.isPrefixOf (resolveFolder ctx.folderPath) = true →
      fs q ≠ Option.none)
    (hinv : invokeCreateFolder p ctx fs = Except.ok (r, fs2, notif)) :
    (escapes ctx.folderPath p = true → r.success = false ∧ fs2 = fs ∧ notif = []) ∧
    (∀ q, fs2 q ≠ fs q → (resolveFolder ctx.folderPath).isPrefixOf q = true) ∧
    (∀ q, q ∈ notif → (resolveFolder ctx.folderPath).isPrefixOf q = true) := by
  by_cases htr : (strTrim p).length = 0
  · simp [invokeCreateFolder, bind, Except.bind, pure, Except.pure,
      assertPathArgument, htr] at hinv
  · by_cases hesc : escapes ctx.folderPath p = true
    · simp only [invokeCreateFolder, bind, Except.bind, pure, Except.pure,
        assertPathArgument, if_neg htr, hdry, Bool.false_eq_true, if_false,
        resolveWithinFolder_eq, hesc, if_true, Except.ok.injEq,
        Prod.mk.injEq] at hinv
      obtain ⟨hr, hf, hn⟩ := hinv
      subst hr hf hn
      exact ⟨fun _ => ⟨rfl, rfl, rfl⟩, fun q hq => absurd rfl hq,
        fun q hq => absurd hq (List.not_mem_nil q)⟩
    · have hres : resolveWithinFolder ctx.folderPath p =
          Except.ok (resolvePath (resolveFolder ctx.folderPath) p) := by
        rw [resolveWithinFolder_eq, if_neg hesc]
      have hFA : (resolveFolder ctx.folderPath).isPrefixOf
          (resolvePath (resolveFolder ctx.folderPath) p) = true :=
        resolveWithinFolder_ok_isPrefixOf _ _ _ hres
      simp only [invokeCreateFolder, bind, Except.bind, pure, Except.pure,
        assertPathArgument, if_neg htr, hdry, Bool.false_eq_true, if_false,
        hres] at hinv
      by_cases hT : (fs (resolvePath (resolveFolder ctx.folderPath) p)).isSome = true
      · simp only [hT, if_true, Except.ok.injEq, Prod.mk.injEq] at hinv
        obtain ⟨hr, hf, hn⟩ := hinv
        subst hr hf hn
        exact ⟨fun he => absurd he hesc, fun q hq => absurd rfl hq,
          fun q hq => absurd hq (List.not_mem_nil q)⟩
      · simp only [hT, Bool.false_eq_true, if_false] at hinv
        cases hmk : Fs.mkdirp fs (resolvePath (resolveFolder ctx.folderPath) p) with
        | error e =>
          rw [hmk] at hinv
          simp only [Except.ok.injEq, Prod.mk.injEq] at hinv
          obtain ⟨hr, hf, hn⟩ := hinv
          subst hr hf hn
          exact ⟨fun he => absurd he hesc, fun q hq => absurd rfl hq,
            fun q hq => absurd hq (List.not_mem_nil q)⟩
        | ok fs1 =>
          rw [hmk] at hinv
          simp only [Except.ok.injEq, Prod.mk.injEq] at hinv
          obtain ⟨hr, hf, hn⟩ := hinv
          subst hr hf hn
          refine ⟨fun he => absurd he hesc, ?_, ?_⟩
          · exact mkdirp_contained (resolveFolder ctx.folderPath)
              (resolvePath (resolveFolder ctx.folderPath) p) _ fs fs1 hmk hanc
              ( List.prefix_refl _) (isPrefixOfIff.mp hFA)
          · intro q hq
            exact absurd hq (List.not_mem_nil q)

/-- C1: path containment for the nine tools. With dry_run=false, on a
filesystem where the folder root and all its ancestors exist, every tool
invocation that returns a result satisfies: if any path argument escapes
the watched folder (its relative form starts with ".." or is absolute) the
result is a failure, the filesystem is unchanged and nothing is notified;
and every path whose entry the call changed, and every path it notified,
lies below the resolved folder root. -/
theorem c1_path_containment (tc : ToolCall) (ctx : ToolCtx) (fs : Fs)
    (r : ToolResult) (fs2 : Fs) (notif : List (List String))
    (hdry : ctx.dryRun = false)
    (hanc : ∀ q, q.isPrefixOf (resolveFolder ctx.folderPath) = true →
      fs q ≠ Option.none)
    (hinv : invokeTool tc ctx fs = Except.ok (r, fs2, notif)) :
    ((∃ p, p ∈ pathArgs tc ∧ escapes ctx.folderPath p = true) →
      r.success = false ∧ fs2 = fs ∧ notif = []) ∧
    (∀ q, fs2 q ≠ fs q → (resolveFolder ctx.folderPath).isPrefixOf q = true) ∧
    (∀ q, q ∈ notif → (resolveFolder ctx.folderPath).isPrefixOf q = true) := by
  cases tc with
  | read_file p =>
    obtain ⟨hf, hn, hes⟩ := readFile_readonly p ctx fs r fs2 notif hinv
    subst hf hn
    refine ⟨?_, fun q hq => absurd rfl hq,
      fun q hq => absurd hq (List.not_mem_nil q)⟩
    rintro ⟨p0, hp0, hesc⟩
    simp only [pathArgs, List.mem_singleton] at hp0
    subst hp0
    exact ⟨hes hesc, rfl, rfl⟩
  | write_file p c =>
    obtain ⟨hes, hcont, hnotif⟩ := c1_write p c ctx fs r fs2 notif hdry hanc hinv
    refine ⟨?_, hcont, hnotif⟩
    rintro ⟨p0, hp0, hesc⟩
    simp only [pathArgs, List.mem_singleton] at hp0
    subst hp0
    exact hes hesc
  | rename_file s d =>
    obtain ⟨hes, hcont, hnotif⟩ := c1_rename s d ctx fs r fs2 notif hdry hanc hinv
    refine ⟨?_, hcont, hnotif⟩
    rintro ⟨p0, hp0, hesc⟩
    simp only [pathArgs, List.mem_cons, List.mem_singleton, List.not_mem_nil,
      or_false] at hp0
    rcases hp0 with rfl | rfl
    · exact hes (Or.inl hesc)
    · exact hes (Or.inr hesc)
  | move_file s d =>
    obtain ⟨hes, hcont, hnotif⟩ := c1_move s d ctx fs r fs2 notif hdry hanc hinv
    refine ⟨?_, hcont, hnotif⟩
    rintro ⟨p0, hp0, hesc⟩
    simp only [pathArgs, List.mem_cons, List.mem_singleton, List.not_mem_nil,
      or_false] at hp0
    rcases hp0 with rfl | rfl
    · exact hes (Or.inl hesc)
    · exact hes (Or.inr hesc)
  | grep p pat ci =>
    obtain ⟨hf, hn, hes⟩ := grep_readonly p pat ci ctx fs r fs2 notif hinv
    subst hf hn
    refine ⟨?_, fun q hq => absurd rfl hq,
      fun q hq => absurd hq (List.not_mem_nil q)⟩
    rintro ⟨p0, hp0, hesc⟩
    simp only [pathArgs, List.mem_singleton] at hp0
    subst hp0
    exact ⟨hes hesc, rfl, rfl⟩
  | sed p f rp ci =>
    obtain ⟨hes, hcont, hnotif⟩ := c1_sed p f rp ci ctx fs r fs2 notif hdry hinv
    refine ⟨?_, hcont, hnotif⟩
    rintro ⟨p0, hp0, hesc⟩
    simp only [pathArgs, List.mem_singleton] at hp0
    subst hp0
    exact hes hesc
  | head p l =>
    obtain ⟨hf, hn, hes⟩ := head_readonly p l ctx fs r fs2 notif hinv
    subst hf hn
    refine ⟨?_, fun q hq => absurd rfl hq,
      fun q hq => absurd hq (List.not_mem_nil q)⟩
    rintro ⟨p0, hp0, hesc⟩
    simp only [pathArgs, List.mem_singleton] at hp0
    subst hp0
    exact ⟨hes hesc, rfl, rfl⟩
  | tail p l =>
    obtain ⟨hf, hn, hes⟩ := tail_readonly p l ctx fs r fs2 notif hinv
    subst hf hn
    refine ⟨?_, fun q hq => absurd rfl hq,
      fun q hq => absurd hq (List.not_mem_nil q)⟩
    rintro ⟨p0, hp0, hesc⟩
    simp only [pathArgs, List.mem_singleton] at hp0
    subst hp0
    exact ⟨hes hesc, rfl, rfl⟩
  | create_folder p =>
    obtain ⟨hes, hcont, hnotif⟩ := c1_create p ctx fs r fs2 notif hdry hanc hinv
    refine ⟨?_, hcont, hnotif⟩
    rintro ⟨p0, hp0, hesc⟩
    simp only [pathArgs, List.mem_singleton] at hp0
    subst hp0
    exact hes hesc

def c1WitFs : Fs := fun q =>
  if q = ([] : List String) then some FsEntry.dir
  else if q = ["w"] then some FsEntry.dir else Option.none

theorem c1WitFs_anc : ∀ q : List String,
    q.isPrefixOf ["w"] = true → c1WitFs q ≠ Option.none := by
  intro q hq
  cases q with
  | nil => simp [c1WitFs]
  | cons a t =>
    cases t with
    | nil =>
      have ha : a = "w" := by simpa [List.isPrefixOf] using hq
      subst ha
      simp [c1WitFs]
    | cons b u => simp [List.isPrefixOf] at hq

/-- C1 witness: a write_file whose path resolves outside the watched
folder fails and leaves the filesystem untouched. -/
theorem c1_path_containment_witness :
    (fun v => match v with
      | Except.ok (r, fs2, notif) =>
          r.success = false ∧ fs2 = c1WitFs ∧ notif = []
      | Except.error _ => False)
    (invokeTool (ToolCall.write_file "../evil.txt" "x") ⟨"/w", false⟩ c1WitFs) :=
  match hinv : invokeTool (ToolCall.write_file "../evil.txt" "x") ⟨"/w", false⟩
      c1WitFs with
  | Except.ok (r, fs2, notif) => by
    exact (c1_path_containment (ToolCall.write_file "../evil.txt" "x")
      ⟨"/w", false⟩ c1WitFs r fs2 notif rfl c1WitFs_anc hinv).1
      ⟨"../evil.txt", by decide, by decide⟩
  | Except.error e => by
    have hok : (invokeTool (ToolCall.write_file "../evil.txt" "x") ⟨"/w", false⟩
        c1WitFs).isOk = true := by decide
    rw [hinv] at hok
    cases hok

end SmartFolder
